import Mathlib

/-!
Verification of the sorting/animation scripts of this repository.

The Python scripts are shallowly embedded: list-mutating loops become
recursive Lean functions over `List Int`, with Python's in-place index
assignments modelled by `List.set` and tuple swaps by `listSwap`.
Indices are natural numbers; on the domains claimed by the specification
all accesses are in bounds, so `List.getD _ _ 0` is a faithful model of
Python indexing there.
-/

/-- Python-style read `l[k]` (in-bounds on all claimed domains). -/
def geti (l : List Int) (k : Nat) : Int := l.getD k 0

/-- Python's simultaneous swap `l[a], l[b] = l[b], l[a]`. -/
def listSwap (l : List Int) (a b : Nat) : List Int :=
  (l.set a (geti l b)).set b (geti l a)

/-- The slice `l[a .. b]` (inclusive on both ends), i.e. Python `l[a:b+1]`. -/
def seg (l : List Int) (a b : Nat) : List Int :=
  (l.drop a).take (b + 1 - a)

/-- The segment `l[a .. b]` is sorted in non-decreasing order. -/
def SortedSeg (l : List Int) (a b : Nat) : Prop :=
  ∀ j k, a ≤ j → j ≤ k → k ≤ b → geti l j ≤ geti l k

@[simp] theorem geti_nil (k : Nat) : geti [] k = 0 := rfl

@[simp] theorem geti_cons_zero (x : Int) (t : List Int) : geti (x :: t) 0 = x := rfl

@[simp] theorem geti_cons_succ (x : Int) (t : List Int) (k : Nat) :
    geti (x :: t) (k + 1) = geti t k := rfl

theorem geti_oob (l : List Int) (k : Nat) (h : l.length ≤ k) : geti l k = 0 := by
  induction l generalizing k with
  | nil => rfl
  | cons x t ih =>
    cases k with
    | zero => simp at h
    | succ k => simpa [geti] using ih k (by simpa using h)

theorem geti_set_self (l : List Int) (k : Nat) (x : Int) (h : k < l.length) :
    geti (l.set k x) k = x := by
  induction l generalizing k with
  | nil => simp at h
  | cons y t ih =>
    cases k with
    | zero => rfl
    | succ k => simpa [geti] using ih k (by simpa using h)

theorem geti_set_other (l : List Int) (k m : Nat) (x : Int) (h : k ≠ m) :
    geti (l.set k x) m = geti l m := by
  induction l generalizing k m with
  | nil => rfl
  | cons y t ih =>
    cases k with
    | zero =>
      cases m with
      | zero => exact absurd rfl h
      | succ m => rfl
    | succ k =>
      cases m with
      | zero => rfl
      | succ m => simpa [geti] using ih k m (by omega)

theorem set_geti_self (l : List Int) (k : Nat) (h : k < l.length) :
    l.set k (geti l k) = l := by
  induction l generalizing k with
  | nil => rfl
  | cons y t ih =>
    cases k with
    | zero => rfl
    | succ k => simpa [geti] using ih k (by simpa using h)

theorem set_oob (l : List Int) (k : Nat) (x : Int) (h : l.length ≤ k) :
    l.set k x = l := by
  induction l generalizing k with
  | nil => rfl
  | cons y t ih =>
    cases k with
    | zero => simp at h
    | succ k => simpa using ih k (by simpa using h)

theorem length_listSwap (l : List Int) (a b : Nat) :
    (listSwap l a b).length = l.length := by
  simp [listSwap]

theorem geti_listSwap_fst (l : List Int) (a b : Nat) (ha : a < l.length)
    (hb : b < l.length) : geti (listSwap l a b) a = geti l b := by
  unfold listSwap
  by_cases hab : a = b
  · subst hab
    rw [geti_set_self _ _ _ (by simpa using ha)]
  · rw [geti_set_other _ _ _ _ (Ne.symm hab), geti_set_self _ _ _ ha]

theorem geti_listSwap_snd (l : List Int) (a b : Nat) (ha : a < l.length)
    (hb : b < l.length) : geti (listSwap l a b) b = geti l a := by
  unfold listSwap
  rw [geti_set_self _ _ _ (by simpa using hb)]

theorem geti_listSwap_other (l : List Int) (a b k : Nat) (hka : k ≠ a)
    (hkb : k ≠ b) : geti (listSwap l a b) k = geti l k := by
  unfold listSwap
  rw [geti_set_other _ _ _ _ (Ne.symm hkb), geti_set_other _ _ _ _ (Ne.symm hka)]

theorem cons_set_perm (t : List Int) (m : Nat) (x : Int) (h : m < t.length) :
    (geti t m :: t.set m x).Perm (x :: t) := by
  induction t generalizing m with
  | nil => simp at h
  | cons y t ih =>
    cases m with
    | zero => simpa [geti] using List.Perm.swap x y t
    | succ m =>
      have ihm := ih m (by simpa using h)
      have step1 : (geti t m :: y :: t.set m x).Perm (y :: geti t m :: t.set m x) :=
        List.Perm.swap y (geti t m) (t.set m x)
      have step2 : (y :: geti t m :: t.set m x).Perm (y :: x :: t) := ihm.cons y
      have step3 : (y :: x :: t).Perm (x :: y :: t) := List.Perm.swap x y t
      simpa [geti] using (step1.trans (step2.trans step3))

theorem listSwap_perm_lt (l : List Int) (a b : Nat) (hab : a < b)
    (hb : b < l.length) : (listSwap l a b).Perm l := by
  induction l generalizing a b with
  | nil => simp at hb
  | cons y t ih =>
    cases a with
    | zero =>
      cases b with
      | zero => omega
      | succ m =>
        have hm : m < t.length := by simpa using hb
        show ((((y :: t).set 0 (geti (y :: t) (m+1))).set (m+1)
            (geti (y :: t) 0))).Perm (y :: t)
        simpa [geti] using cons_set_perm t m y hm
    | succ a =>
      cases b with
      | zero => omega
      | succ b =>
        have := ih a b (by omega) (by simpa using hb)
        simpa [listSwap, geti] using this.cons y

theorem listSwap_perm (l : List Int) (a b : Nat) (ha : a < l.length)
    (hb : b < l.length) : (listSwap l a b).Perm l := by
  rcases Nat.lt_trichotomy a b with hab | hab | hab
  · exact listSwap_perm_lt l a b hab hb
  · subst hab
    have : listSwap l a a = l := by
      unfold listSwap
      rw [List.set_set, set_geti_self _ _ ha]
    rw [this]
  · have hcomm : listSwap l a b = listSwap l b a := by
      unfold listSwap
      rw [List.set_comm _ _ _ (by omega)]
    rw [hcomm]
    exact listSwap_perm_lt l b a hab ha

theorem list_ext_geti (l₁ l₂ : List Int) (hlen : l₁.length = l₂.length)
    (h : ∀ k, k < l₁.length → geti l₁ k = geti l₂ k) : l₁ = l₂ := by
  induction l₁ generalizing l₂ with
  | nil => cases l₂ with
    | nil => rfl
    | cons y t => simp at hlen
  | cons x t ih =>
    cases l₂ with
    | nil => simp at hlen
    | cons y s =>
      have h0 := h 0 (by simp)
      simp [geti] at h0
      have := ih s (by simpa using hlen)
        (fun k hk => by simpa [geti] using h (k+1) (by simpa using hk))
      simp [h0, this]

theorem geti_take_lt (l : List Int) (n k : Nat) (h : k < n) :
    geti (l.take n) k = geti l k := by
  induction l generalizing n k with
  | nil => simp
  | cons x t ih =>
    cases n with
    | zero => omega
    | succ n =>
      cases k with
      | zero => rfl
      | succ k => simpa [geti] using ih n k (by omega)

theorem geti_drop (l : List Int) (n k : Nat) :
    geti (l.drop n) k = geti l (n + k) := by
  induction n generalizing l with
  | zero => simp
  | succ n ih =>
    cases l with
    | nil => simp
    | cons x t =>
      have : n + 1 + k = (n + k) + 1 := by omega
      simp [List.drop_succ_cons, ih t, this, geti]

theorem geti_append_left (s t : List Int) (k : Nat) (h : k < s.length) :
    geti (s ++ t) k = geti s k := by
  induction s generalizing k with
  | nil => simp at h
  | cons x s ih =>
    cases k with
    | zero => rfl
    | succ k => simpa [geti] using ih k (by simpa using h)

theorem geti_append_right (s t : List Int) (k : Nat) (h : s.length ≤ k) :
    geti (s ++ t) k = geti t (k - s.length) := by
  induction s generalizing k with
  | nil => simp
  | cons x s ih =>
    cases k with
    | zero => simp at h
    | succ k => simpa [geti] using ih k (by simpa using h)

theorem take_eq_of_agree (l₁ l₂ : List Int) (n : Nat)
    (hlen : l₁.length = l₂.length)
    (h : ∀ k, k < n → geti l₁ k = geti l₂ k) : l₁.take n = l₂.take n := by
  apply list_ext_geti
  · simp [hlen]
  · intro k hk
    have hkn : k < n := by simp at hk; omega
    rw [geti_take_lt _ _ _ hkn, geti_take_lt _ _ _ hkn]
    exact h k hkn

theorem drop_eq_of_agree (l₁ l₂ : List Int) (n : Nat)
    (hlen : l₁.length = l₂.length)
    (h : ∀ k, n ≤ k → geti l₁ k = geti l₂ k) : l₁.drop n = l₂.drop n := by
  apply list_ext_geti
  · simp [hlen]
  · intro k _
    rw [geti_drop, geti_drop]
    exact h (n + k) (by omega)

theorem mem_geti (l : List Int) (x : Int) :
    x ∈ l ↔ ∃ k, k < l.length ∧ geti l k = x := by
  induction l with
  | nil => simp
  | cons y t ih =>
    constructor
    · intro hx
      rcases List.mem_cons.mp hx with h | h
      · exact ⟨0, by simp [h, geti]⟩
      · rcases ih.mp h with ⟨k, hk, hg⟩
        exact ⟨k + 1, by simpa using hk, by simpa [geti] using hg⟩
    · rintro ⟨k, hk, hg⟩
      cases k with
      | zero => simp [geti] at hg; simp [hg]
      | succ k =>
        have : x ∈ t := ih.mpr ⟨k, by simpa using hk, by simpa [geti] using hg⟩
        exact List.mem_cons_of_mem y this

theorem length_seg (l : List Int) (a b : Nat) (hab : a ≤ b) (hb : b < l.length) :
    (seg l a b).length = b + 1 - a := by
  simp [seg]
  omega

theorem geti_seg (l : List Int) (a b k : Nat) (h : k < b + 1 - a) :
    geti (seg l a b) k = geti l (a + k) := by
  unfold seg
  rw [geti_take_lt _ _ _ h, geti_drop]

theorem mem_seg (l : List Int) (a b : Nat) (x : Int) (hab : a ≤ b)
    (hb : b < l.length) :
    x ∈ seg l a b ↔ ∃ k, a ≤ k ∧ k ≤ b ∧ geti l k = x := by
  rw [mem_geti]
  constructor
  · rintro ⟨k, hk, hg⟩
    rw [length_seg _ _ _ hab hb] at hk
    refine ⟨a + k, by omega, by omega, ?_⟩
    rw [← geti_seg l a b k (by omega)]
    exact hg
  · rintro ⟨k, hka, hkb, hg⟩
    refine ⟨k - a, ?_, ?_⟩
    · rw [length_seg _ _ _ hab hb]; omega
    · rw [geti_seg l a b (k - a) (by omega)]
      have : a + (k - a) = k := by omega
      rw [this]; exact hg

theorem seg_decomp (l : List Int) (a b : Nat) (hab : a ≤ b) (hb : b < l.length) :
    l.take a ++ seg l a b ++ l.drop (b + 1) = l := by
  have h1 : seg l a b ++ l.drop (b + 1) = l.drop a := by
    have h2 : (l.drop a).drop (b + 1 - a) = l.drop (b + 1) := by
      rw [List.drop_drop]
      congr 1
      omega
    rw [← h2]
    exact List.take_append_drop _ _
  rw [List.append_assoc, h1, List.take_append_drop]

theorem seg_split (l : List Int) (a m b : Nat) (ham : a ≤ m) (hmb : m < b) :
    seg l a b = seg l a m ++ seg l (m + 1) b := by
  unfold seg
  have h1 : b + 1 - a = (m + 1 - a) + (b - m) := by omega
  rw [h1, List.take_add, List.drop_drop]
  have h2 : a + (m + 1 - a) = m + 1 := by omega
  rw [h2]
  have h3 : b - m = b + 1 - (m + 1) := by omega
  rw [h3]

theorem perm_append_middle_cancel (t s₁ s₂ d : List Int)
    (h : (t ++ s₁ ++ d).Perm (t ++ s₂ ++ d)) : s₁.Perm s₂ := by
  have h1 : ((t ++ s₁) ++ d).Perm ((t ++ s₂) ++ d) := h
  have h2 : (t ++ s₁).Perm (t ++ s₂) := (List.perm_append_right_iff d).mp h1
  exact (List.perm_append_left_iff t).mp h2

theorem perm_seg_of_agree (l' l : List Int) (a b : Nat)
    (hlen : l'.length = l.length) (hperm : l'.Perm l)
    (hlo : ∀ k, k < a → geti l' k = geti l k)
    (hhi : ∀ k, b < k → geti l' k = geti l k)
    (hab : a ≤ b) (hb : b < l.length) :
    (seg l' a b).Perm (seg l a b) := by
  have hb' : b < l'.length := by omega
  have ht : l'.take a = l.take a := take_eq_of_agree _ _ _ hlen hlo
  have hd : l'.drop (b + 1) = l.drop (b + 1) :=
    drop_eq_of_agree _ _ _ hlen (fun k hk => hhi k (by omega))
  have e1 := seg_decomp l' a b hab hb'
  have e2 := seg_decomp l a b hab hb
  have key : (l'.take a ++ seg l' a b ++ l'.drop (b + 1)).Perm
      (l.take a ++ seg l a b ++ l.drop (b + 1)) := by
    rw [e1, e2]; exact hperm
  rw [ht, hd] at key
  exact perm_append_middle_cancel _ _ _ _ key

theorem sortedSeg_congr (l' l : List Int) (a b : Nat)
    (h : ∀ k, a ≤ k → k ≤ b → geti l' k = geti l k)
    (hs : SortedSeg l a b) : SortedSeg l' a b := by
  intro j k hj hjk hkb
  rw [h j hj (by omega), h k (by omega) hkb]
  exact hs j k hj hjk hkb

theorem sorted_iff_geti (l : List Int) :
    l.Sorted (· ≤ ·) ↔ ∀ j k, j < k → k < l.length → geti l j ≤ geti l k := by
  induction l with
  | nil => simp
  | cons x t ih =>
    rw [List.sorted_cons]
    constructor
    · rintro ⟨hx, hs⟩ j k hjk hk
      cases j with
      | zero =>
        cases k with
        | zero => omega
        | succ k =>
          simp only [geti_cons_zero, geti_cons_succ]
          by_cases hkt : k < t.length
          · exact hx _ ((mem_geti t (geti t k)).mpr ⟨k, hkt, rfl⟩)
          · rw [geti_oob t k (by omega)]
            simp at hk; omega
      | succ j =>
        cases k with
        | zero => omega
        | succ k =>
          simp only [geti_cons_succ]
          exact (ih.mp hs) j k (by omega) (by simpa using hk)
    · intro h
      constructor
      · intro y hy
        rcases (mem_geti t y).mp hy with ⟨k, hk, hg⟩
        have hle := h 0 (k + 1) (by omega) (by simpa using hk)
        rw [geti_cons_zero, geti_cons_succ, hg] at hle
        exact hle
      · exact ih.mpr (fun j k hjk hk =>
          by simpa [geti] using h (j + 1) (k + 1) (by omega) (by simpa using hk))

theorem sortedSeg_iff_sorted_seg (l : List Int) (a b : Nat) (hab : a ≤ b)
    (hb : b < l.length) :
    SortedSeg l a b ↔ (seg l a b).Sorted (· ≤ ·) := by
  rw [sorted_iff_geti]
  constructor
  · intro hs j k hjk hk
    rw [length_seg _ _ _ hab hb] at hk
    rw [geti_seg _ _ _ _ (by omega), geti_seg _ _ _ _ (by omega)]
    exact hs (a + j) (a + k) (by omega) (by omega) (by omega)
  · intro hs j k hj hjk hkb
    by_cases hjk' : j = k
    · subst hjk'; exact le_refl _
    · have h1 := hs (j - a) (k - a) (by omega)
        (by rw [length_seg _ _ _ hab hb]; omega)
      rw [geti_seg _ _ _ _ (by omega), geti_seg _ _ _ _ (by omega)] at h1
      have e1 : a + (j - a) = j := by omega
      have e2 : a + (k - a) = k := by omega
      rw [e1, e2] at h1
      exact h1

/-!
Lomuto partition, translated from `quick_sort_animation` in
`src/Resources/Code_Examples/sorting_algorithms_manim.py` (lines 78-97) and
`src/Week1/sorting_algorithms_manim.py` (lines 169-196).  The Python
`for j in range(low, high)` loop runs exactly `high - low` iterations, so it
is embedded structurally with the remaining iteration count as first
argument.  The running index `i` of the source starts at `low - 1` and is
only ever read after being incremented, so the embedding tracks `i1 = i + 1`
(a natural number).
-/

/-- The body of `for j in range(low, high): if values[j] <= pivot_value: i += 1;
values[i], values[j] = values[j], values[i]`, with `n` iterations left,
running index `j`, and `i1 = i + 1`. -/
def partitionFuel (pv : Int) : Nat → List Int → Nat → Nat → List Int × Nat
  | 0, arr, i1, _ => (arr, i1)
  | n + 1, arr, i1, j =>
    if geti arr j ≤ pv then partitionFuel pv n (listSwap arr i1 j) (i1 + 1) (j + 1)
    else partitionFuel pv n arr i1 (j + 1)

/-- The whole partition phase: `pivot_value = values[high]`, the loop, and the
final swap `values[i+1], values[high] = values[high], values[i+1]`.  Returns
the partitioned list and the pivot position `p = i + 1`. -/
def lomutoPartition (arr : List Int) (low high : Nat) : List Int × Nat :=
  let pv := geti arr high
  let r := partitionFuel pv (high - low) arr low low
  (listSwap r.1 r.2 high, r.2)

theorem partitionFuel_spec (pv : Int) :
    ∀ (n : Nat) (arr : List Int) (i1 j high : Nat),
    n = high - j → i1 ≤ j → j ≤ high → high < arr.length →
    (∀ k, i1 ≤ k → k < j → pv < geti arr k) →
    (i1 ≤ (partitionFuel pv n arr i1 j).2 ∧
      (partitionFuel pv n arr i1 j).2 ≤ i1 + (high - j)) ∧
    (partitionFuel pv n arr i1 j).1.length = arr.length ∧
    (∀ k, k < i1 ∨ high ≤ k →
      geti (partitionFuel pv n arr i1 j).1 k = geti arr k) ∧
    (partitionFuel pv n arr i1 j).1.Perm arr ∧
    (∀ k, i1 ≤ k → k < (partitionFuel pv n arr i1 j).2 →
      geti (partitionFuel pv n arr i1 j).1 k ≤ pv) ∧
    (∀ k, (partitionFuel pv n arr i1 j).2 ≤ k → k < high →
      pv < geti (partitionFuel pv n arr i1 j).1 k) := by
  intro n
  induction n with
  | zero =>
    intro arr i1 j high hn hij hjh hlen hinv
    have hj : j = high := by omega
    subst hj
    refine ⟨⟨le_refl _, Nat.le_add_right _ _⟩, rfl, fun k _ => rfl,
      List.Perm.refl _, ?_, ?_⟩
    · intro k hk1 hk2
      have hk2' : k < i1 := hk2
      omega
    · intro k hk1 hk2
      have hk1' : i1 ≤ k := hk1
      exact hinv k hk1' hk2
  | succ n ih =>
    intro arr i1 j high hn hij hjh hlen hinv
    have hjlt : j < high := by omega
    by_cases hc : geti arr j ≤ pv
    · have hred : partitionFuel pv (n + 1) arr i1 j =
          partitionFuel pv n (listSwap arr i1 j) (i1 + 1) (j + 1) := by
        simp [partitionFuel, hc]
      have hilen : i1 < arr.length := by omega
      have hjlen : j < arr.length := by omega
      have hlen2 : (listSwap arr i1 j).length = arr.length := length_listSwap _ _ _
      have hinv2 : ∀ k, i1 + 1 ≤ k → k < j + 1 → pv < geti (listSwap arr i1 j) k := by
        intro k hk1 hk2
        by_cases hkj : k = j
        · subst hkj
          have hij' : i1 < k := by omega
          rw [geti_listSwap_snd _ _ _ hilen hjlen]
          exact hinv i1 (le_refl _) hij'
        · rw [geti_listSwap_other _ _ _ _ (by omega) hkj]
          exact hinv k (by omega) (by omega)
      obtain ⟨⟨hb1, hb2⟩, hl, hout, hperm, hle, hgt⟩ :=
        ih (listSwap arr i1 j) (i1 + 1) (j + 1) high (by omega) (by omega)
          (by omega) (by omega : high < (listSwap arr i1 j).length) hinv2
      rw [hred]
      refine ⟨⟨by omega, by omega⟩, by rw [hl, hlen2], ?_, ?_, ?_, ?_⟩
      · intro k hk
        rw [hout k (by omega)]
        exact geti_listSwap_other _ _ _ _ (by omega) (by omega)
      · exact hperm.trans (listSwap_perm _ _ _ hilen hjlen)
      · intro k hk1 hk2
        by_cases hki : k = i1
        · subst hki
          rw [hout k (by omega), geti_listSwap_fst _ _ _ hilen hjlen]
          exact hc
        · exact hle k (by omega) hk2
      · exact hgt
    · have hred : partitionFuel pv (n + 1) arr i1 j =
          partitionFuel pv n arr i1 (j + 1) := by
        simp [partitionFuel, hc]
      push_neg at hc
      have hinv2 : ∀ k, i1 ≤ k → k < j + 1 → pv < geti arr k := by
        intro k hk1 hk2
        by_cases hkj : k = j
        · subst hkj; exact hc
        · exact hinv k hk1 (by omega)
      obtain ⟨⟨hb1, hb2⟩, hl, hout, hperm, hle, hgt⟩ :=
        ih arr i1 (j + 1) high (by omega) (by omega) (by omega) hlen hinv2
      rw [hred]
      exact ⟨⟨hb1, by omega⟩, hl, hout, hperm, hle, hgt⟩

theorem lomutoPartition_spec (arr : List Int) (low high : Nat)
    (h1 : low < high) (h2 : high < arr.length) :
    low ≤ (lomutoPartition arr low high).2 ∧
    (lomutoPartition arr low high).2 ≤ high ∧
    (lomutoPartition arr low high).1.length = arr.length ∧
    geti (lomutoPartition arr low high).1 (lomutoPartition arr low high).2 =
      geti arr high ∧
    (∀ k, low ≤ k → k < (lomutoPartition arr low high).2 →
      geti (lomutoPartition arr low high).1 k ≤ geti arr high) ∧
    (∀ k, (lomutoPartition arr low high).2 < k → k ≤ high →
      geti arr high < geti (lomutoPartition arr low high).1 k) ∧
    (∀ k, k < low ∨ high < k →
      geti (lomutoPartition arr low high).1 k = geti arr k) ∧
    (lomutoPartition arr low high).1.Perm arr := by
  obtain ⟨⟨hp1, hp2⟩, hlen, hout, hperm, hle, hgt⟩ :=
    partitionFuel_spec (geti arr high) (high - low) arr low low high rfl
      (le_refl _) (le_of_lt h1) h2 (fun k hk1 hk2 => by omega)
  set R := partitionFuel (geti arr high) (high - low) arr low low with hR
  have hdef : lomutoPartition arr low high = (listSwap R.1 R.2 high, R.2) := rfl
  rw [hdef]
  have hp2' : R.2 ≤ high := by omega
  have hRlen : high < R.1.length := by omega
  have hR2len : R.2 < R.1.length := by omega
  refine ⟨hp1, hp2', by simp [length_listSwap, hlen], ?_, ?_, ?_, ?_, ?_⟩
  · by_cases hph : R.2 = high
    · rw [hph, geti_listSwap_fst _ _ _ hRlen hRlen]
      exact hout high (Or.inr (le_refl _))
    · rw [geti_listSwap_fst _ _ _ hR2len hRlen]
      exact hout high (Or.inr (le_refl _))
  · intro k hk1 hk2
    rw [geti_listSwap_other _ _ _ _ (by omega) (by omega)]
    exact hle k hk1 hk2
  · intro k hk1 hk2
    by_cases hkh : k = high
    · subst hkh
      rw [geti_listSwap_snd _ _ _ hR2len hRlen]
      exact hgt R.2 (le_refl _) (by omega)
    · rw [geti_listSwap_other _ _ _ _ (by omega) hkh]
      exact hgt k (by omega) (by omega)
  · intro k hk
    rw [geti_listSwap_other _ _ _ _ (by omega) (by omega)]
    exact hout k (by omega)
  · exact (listSwap_perm _ _ _ hR2len hRlen).trans hperm

theorem partitionFuel_snd_ge (pv : Int) :
    ∀ (n : Nat) (arr : List Int) (i1 j : Nat),
    i1 ≤ (partitionFuel pv n arr i1 j).2 := by
  intro n
  induction n with
  | zero => intro arr i1 j; exact le_refl _
  | succ n ih =>
    intro arr i1 j
    by_cases hc : geti arr j ≤ pv
    · have hred : partitionFuel pv (n + 1) arr i1 j =
          partitionFuel pv n (listSwap arr i1 j) (i1 + 1) (j + 1) := by
        simp [partitionFuel, hc]
      rw [hred]
      exact le_trans (Nat.le_succ _) (ih _ _ _)
    · have hred : partitionFuel pv (n + 1) arr i1 j =
          partitionFuel pv n arr i1 (j + 1) := by
        simp [partitionFuel, hc]
      rw [hred]
      exact ih _ _ _

theorem partitionFuel_snd_le (pv : Int) :
    ∀ (n : Nat) (arr : List Int) (i1 j : Nat),
    (partitionFuel pv n arr i1 j).2 ≤ i1 + n := by
  intro n
  induction n with
  | zero => intro arr i1 j; exact Nat.le_add_right _ _
  | succ n ih =>
    intro arr i1 j
    by_cases hc : geti arr j ≤ pv
    · have hred : partitionFuel pv (n + 1) arr i1 j =
          partitionFuel pv n (listSwap arr i1 j) (i1 + 1) (j + 1) := by
        simp [partitionFuel, hc]
      rw [hred]
      have := ih (listSwap arr i1 j) (i1 + 1) (j + 1)
      omega
    · have hred : partitionFuel pv (n + 1) arr i1 j =
          partitionFuel pv n arr i1 (j + 1) := by
        simp [partitionFuel, hc]
      rw [hred]
      have := ih arr i1 (j + 1)
      omega

theorem lomutoPartition_snd_ge (arr : List Int) (low high : Nat) :
    low ≤ (lomutoPartition arr low high).2 :=
  partitionFuel_snd_ge _ _ _ _ _

theorem lomutoPartition_snd_le (arr : List Int) (low high : Nat)
    (h : low ≤ high) : (lomutoPartition arr low high).2 ≤ high := by
  have := partitionFuel_snd_le (geti arr high) (high - low) arr low low
  have hd : (lomutoPartition arr low high).2 =
      (partitionFuel (geti arr high) (high - low) arr low low).2 := rfl
  omega

/-- Week1 `quick_sort_animation(arr, left, right, bars, scene)`
(`src/Week1/sorting_algorithms_manim.py`, lines 159-221): Lomuto partition on
`[left, right]`, then the demo recursion cap
`if right - (i+1) < 3 and i+1 - left < 3` before the two recursive calls
`(left, i)` and `(i + 2, right)`.  With `p = i + 1` a natural number, the
recursive bounds are `(low, p - 1)` and `(p + 1, high)`; when `p = 0` the
Python call has `right = -1` and its `left < right` guard fails, exactly as
the truncated `p - 1 = 0` with guard `low < 0` does here. -/
def quick_sort_animation_week1 (arr : List Int) (low high : Nat) : List Int :=
  if h : low < high then
    if ((high : Int) - (lomutoPartition arr low high).2 < 3) ∧
        (((lomutoPartition arr low high).2 : Int) - low < 3) then
      quick_sort_animation_week1
        (quick_sort_animation_week1 (lomutoPartition arr low high).1 low
          ((lomutoPartition arr low high).2 - 1))
        ((lomutoPartition arr low high).2 + 1) high
    else (lomutoPartition arr low high).1
  else arr
termination_by high - low
decreasing_by
  · have hge := lomutoPartition_snd_ge arr low high
    have hle := lomutoPartition_snd_le arr low high (by omega)
    omega
  · have hge := lomutoPartition_snd_ge arr low high
    omega

/-- Code_Examples `quick_sort_animation(self, bars, values, low, high)`
(`src/Resources/Code_Examples/sorting_algorithms_manim.py`, lines 68-116):
Lomuto partition on `[low, high]`, then the demo recursion cap
`if high - low < 10` before the recursive calls `(low, i)` and
`(i + 2, high)`. -/
def quick_sort_animation (arr : List Int) (low high : Nat) : List Int :=
  if h : low < high then
    if (high : Int) - low < 10 then
      quick_sort_animation
        (quick_sort_animation (lomutoPartition arr low high).1 low
          ((lomutoPartition arr low high).2 - 1))
        ((lomutoPartition arr low high).2 + 1) high
    else (lomutoPartition arr low high).1
  else arr
termination_by high - low
decreasing_by
  · have hge := lomutoPartition_snd_ge arr low high
    have hle := lomutoPartition_snd_le arr low high (by omega)
    omega
  · have hge := lomutoPartition_snd_ge arr low high
    omega

/-- The same routine with the animation cap removed, i.e. the textbook
quicksort that both capped versions abbreviate: recurse unconditionally on
`(low, i)` and `(i + 2, high)`. -/
def quickSortUncapped (arr : List Int) (low high : Nat) : List Int :=
  if h : low < high then
    quickSortUncapped
      (quickSortUncapped (lomutoPartition arr low high).1 low
        ((lomutoPartition arr low high).2 - 1))
      ((lomutoPartition arr low high).2 + 1) high
  else arr
termination_by high - low
decreasing_by
  · have hge := lomutoPartition_snd_ge arr low high
    have hle := lomutoPartition_snd_le arr low high (by omega)
    omega
  · have hge := lomutoPartition_snd_ge arr low high
    omega

theorem bound_transfer (l' l : List Int) (a b : Nat) (P : Int → Prop)
    (hseg : (seg l' a b).Perm (seg l a b)) (hab : a ≤ b) (hb : b < l.length)
    (hb' : b < l'.length)
    (h : ∀ k, a ≤ k → k ≤ b → P (geti l k)) :
    ∀ k, a ≤ k → k ≤ b → P (geti l' k) := by
  intro k hk1 hk2
  have hmem : geti l' k ∈ seg l' a b :=
    (mem_seg l' a b _ hab hb').mpr ⟨k, hk1, hk2, rfl⟩
  have hmem2 : geti l' k ∈ seg l a b := hseg.mem_iff.mp hmem
  rcases (mem_seg l a b _ hab hb).mp hmem2 with ⟨m, h1, h2, h3⟩
  rw [← h3]
  exact h m h1 h2

theorem bound_preserved (l' l : List Int) (a b : Nat) (P : Int → Prop)
    (hlen : l'.length = l.length) (hperm : l'.Perm l)
    (hlo : ∀ k, k < a → geti l' k = geti l k)
    (hhi : ∀ k, b < k → geti l' k = geti l k)
    (hab : a ≤ b) (hb : b < l.length)
    (h : ∀ k, a ≤ k → k ≤ b → P (geti l k)) :
    ∀ k, a ≤ k → k ≤ b → P (geti l' k) :=
  bound_transfer l' l a b P
    (perm_seg_of_agree l' l a b hlen hperm hlo hhi hab hb) hab hb
    (by omega) h

theorem quickSortUncapped_spec :
    ∀ (n : Nat) (arr : List Int) (low high : Nat), high - low ≤ n →
    high < arr.length →
    (quickSortUncapped arr low high).length = arr.length ∧
    (quickSortUncapped arr low high).Perm arr ∧
    (∀ k, k < low ∨ high < k →
      geti (quickSortUncapped arr low high) k = geti arr k) ∧
    SortedSeg (quickSortUncapped arr low high) low high := by
  intro n
  induction n with
  | zero =>
    intro arr low high hn hhigh
    have hred : quickSortUncapped arr low high = arr := by
      rw [quickSortUncapped.eq_def, dif_neg (by omega : ¬ low < high)]
    rw [hred]
    refine ⟨rfl, List.Perm.refl _, fun k _ => rfl, ?_⟩
    intro j k hj hjk hk
    have : j = k := by omega
    rw [this]
  | succ n ih =>
    intro arr low high hn hhigh
    by_cases hlh : low < high
    · obtain ⟨hp1, hp2, hPlen, hpv, hlo, hhi, hout, hperm⟩ :=
        lomutoPartition_spec arr low high hlh hhigh
      set A := (lomutoPartition arr low high).1 with hAdef
      set p := (lomutoPartition arr low high).2 with hpdef
      have hred : quickSortUncapped arr low high =
          quickSortUncapped (quickSortUncapped A low (p - 1)) (p + 1) high := by
        conv_lhs => rw [quickSortUncapped.eq_def]
        rw [dif_pos hlh]
      obtain ⟨ih1len, ih1perm, ih1out, ih1sorted⟩ :=
        ih A low (p - 1) (by omega) (by omega)
      set r1 := quickSortUncapped A low (p - 1) with hr1def
      obtain ⟨ih2len, ih2perm, ih2out, ih2sorted⟩ :=
        ih r1 (p + 1) high (by omega) (by omega)
      set r2 := quickSortUncapped r1 (p + 1) high with hr2def
      rw [hred]
      have hlen2 : r2.length = arr.length := by omega
      have hperm2 : r2.Perm arr := (ih2perm.trans ih1perm).trans hperm
      have houtside : ∀ k, k < low ∨ high < k → geti r2 k = geti arr k := by
        intro k hk
        rw [ih2out k (by omega), ih1out k (by omega), hout k hk]
      refine ⟨hlen2, hperm2, houtside, ?_⟩
      -- the pivot value
      set pv := geti arr high with hpvdef
      have hr1p : geti r1 p = geti A p := by
        by_cases hp0 : p = 0
        · have hl0 : low = 0 := by omega
          have hr1A : r1 = A := by
            rw [hr1def, hp0, hl0]
            rw [quickSortUncapped.eq_def]
            norm_num
          rw [hr1A]
        · exact ih1out p (by omega)
      have f1 : geti r2 p = pv := by
        rw [ih2out p (by omega), hr1p]
        exact hpv
      have f2 : ∀ k, low ≤ k → k < p → geti r2 k ≤ pv := by
        intro k hk1 hk2
        rw [ih2out k (by omega)]
        have hple : low ≤ p - 1 := by omega
        have htrans := bound_preserved r1 A low (p - 1) (fun v => v ≤ pv)
          (by omega) ih1perm (fun m hm => ih1out m (by omega))
          (fun m hm => ih1out m (by omega)) hple (by omega)
          (fun m hm1 hm2 => hlo m hm1 (by omega))
        exact htrans k hk1 (by omega)
      have f3 : ∀ k, p < k → k ≤ high → pv < geti r2 k := by
        intro k hk1 hk2
        have hbase : ∀ m, p + 1 ≤ m → m ≤ high → pv < geti r1 m := by
          intro m hm1 hm2
          rw [ih1out m (by omega)]
          exact hhi m (by omega) hm2
        have htrans := bound_transfer r2 r1 (p + 1) high (fun v => pv < v)
          (perm_seg_of_agree r2 r1 (p + 1) high (by omega) ih2perm
            (fun m hm => ih2out m (by omega)) (fun m hm => ih2out m (by omega))
            (by omega) (by omega))
          (by omega) (by omega) (by omega) hbase
        exact htrans k (by omega) hk2
      have f4 : 1 ≤ p → SortedSeg r2 low (p - 1) := by
        intro hp
        exact sortedSeg_congr r2 r1 low (p - 1)
          (fun m hm1 hm2 => ih2out m (by omega)) ih1sorted
      intro j k hj hjk hk
      rcases Nat.lt_trichotomy j p with hjp | hjp | hjp
      · rcases Nat.lt_trichotomy k p with hkp | hkp | hkp
        · exact f4 (by omega) j k hj (by omega) (by omega)
        · rw [hkp, f1]
          exact f2 j hj hjp
        · exact le_of_lt (lt_of_le_of_lt (f2 j hj hjp) (f3 k hkp hk))
      · rcases Nat.lt_trichotomy k p with hkp | hkp | hkp
        · omega
        · rw [hjp, hkp]
        · rw [hjp, f1]
          exact le_of_lt (f3 k hkp hk)
      · exact ih2sorted j k (by omega) hjk hk
    · have hred : quickSortUncapped arr low high = arr := by
        rw [quickSortUncapped.eq_def, dif_neg hlh]
      rw [hred]
      refine ⟨rfl, List.Perm.refl _, fun k _ => rfl, ?_⟩
      intro j k hj hjk hk
      have : j = k := by omega
      rw [this]

theorem quick_sort_animation_week1_perm :
    ∀ (n : Nat) (arr : List Int) (low high : Nat), high - low ≤ n →
    high < arr.length →
    (quick_sort_animation_week1 arr low high).length = arr.length ∧
    (quick_sort_animation_week1 arr low high).Perm arr := by
  intro n
  induction n with
  | zero =>
    intro arr low high hn hhigh
    rw [quick_sort_animation_week1.eq_def, dif_neg (by omega : ¬ low < high)]
    exact ⟨rfl, List.Perm.refl _⟩
  | succ n ih =>
    intro arr low high hn hhigh
    by_cases hlh : low < high
    · obtain ⟨hp1, hp2, hPlen, _, _, _, _, hperm⟩ :=
        lomutoPartition_spec arr low high hlh hhigh
      rw [quick_sort_animation_week1.eq_def, dif_pos hlh]
      set A := (lomutoPartition arr low high).1 with hAdef
      set p := (lomutoPartition arr low high).2 with hpdef
      by_cases hcap : ((high : Int) - p < 3) ∧ ((p : Int) - low < 3)
      · rw [if_pos hcap]
        obtain ⟨ih1len, ih1perm⟩ := ih A low (p - 1) (by omega) (by omega)
        obtain ⟨ih2len, ih2perm⟩ :=
          ih (quick_sort_animation_week1 A low (p - 1)) (p + 1) high
            (by omega) (by omega)
        exact ⟨by omega, (ih2perm.trans ih1perm).trans hperm⟩
      · rw [if_neg hcap]
        exact ⟨hPlen, hperm⟩
    · rw [quick_sort_animation_week1.eq_def, dif_neg hlh]
      exact ⟨rfl, List.Perm.refl _⟩

theorem quick_sort_animation_perm :
    ∀ (n : Nat) (arr : List Int) (low high : Nat), high - low ≤ n →
    high < arr.length →
    (quick_sort_animation arr low high).length = arr.length ∧
    (quick_sort_animation arr low high).Perm arr := by
  intro n
  induction n with
  | zero =>
    intro arr low high hn hhigh
    rw [quick_sort_animation.eq_def, dif_neg (by omega : ¬ low < high)]
    exact ⟨rfl, List.Perm.refl _⟩
  | succ n ih =>
    intro arr low high hn hhigh
    by_cases hlh : low < high
    · obtain ⟨hp1, hp2, hPlen, _, _, _, _, hperm⟩ :=
        lomutoPartition_spec arr low high hlh hhigh
      rw [quick_sort_animation.eq_def, dif_pos hlh]
      set A := (lomutoPartition arr low high).1 with hAdef
      set p := (lomutoPartition arr low high).2 with hpdef
      by_cases hcap : (high : Int) - low < 10
      · rw [if_pos hcap]
        obtain ⟨ih1len, ih1perm⟩ := ih A low (p - 1) (by omega) (by omega)
        obtain ⟨ih2len, ih2perm⟩ :=
          ih (quick_sort_animation A low (p - 1)) (p + 1) high
            (by omega) (by omega)
        exact ⟨by omega, (ih2perm.trans ih1perm).trans hperm⟩
      · rw [if_neg hcap]
        exact ⟨hPlen, hperm⟩
    · rw [quick_sort_animation.eq_def, dif_neg hlh]
      exact ⟨rfl, List.Perm.refl _⟩

/-!
Merge, translated from `merge_animation(self, bars, values, start, mid, end)`
in `src/Resources/Code_Examples/sorting_algorithms_manim.py` (lines 181-208):
`L = values[start:mid+1]`, `R = values[mid+1:end+1]` are copies, then three
`while` loops write the merged sequence back into `values[start..end]` with a
running write index `k` starting at `start`.  The loops run exactly
`len(L) + len(R)` iterations in total, so they are embedded structurally with
that iteration count as fuel; `L`/`R` are consumed from the front in place of
the read indices `i`/`j`. -/
def mergeWriteFuel : Nat → List Int → List Int → List Int → Nat → List Int
  | 0, values, _, _, _ => values
  | n + 1, values, L, R, k =>
    match L, R with
    | [], [] => values
    | [], b :: R2 => mergeWriteFuel n (values.set k b) [] R2 (k + 1)
    | a :: L2, [] => mergeWriteFuel n (values.set k a) L2 [] (k + 1)
    | a :: L2, b :: R2 =>
      if a ≤ b then mergeWriteFuel n (values.set k a) L2 (b :: R2) (k + 1)
      else mergeWriteFuel n (values.set k b) (a :: L2) R2 (k + 1)

/-- `merge_animation(values, start, mid, end)`: slice out the two halves and
write their merge back into `values[start..end]`. -/
def merge_animation (values : List Int) (start mid e : Nat) : List Int :=
  mergeWriteFuel
    (((values.drop start).take (mid + 1 - start)).length +
      ((values.drop (mid + 1)).take (e + 1 - (mid + 1))).length)
    values
    ((values.drop start).take (mid + 1 - start))
    ((values.drop (mid + 1)).take (e + 1 - (mid + 1)))
    start

/-- The pure merge of two lists, left-biased on ties exactly as the source's
`if L[i] <= R[j]` comparison is. -/
def mergeList : List Int → List Int → List Int
  | [], R => R
  | L, [] => L
  | a :: L2, b :: R2 =>
    if a ≤ b then a :: mergeList L2 (b :: R2) else b :: mergeList (a :: L2) R2
termination_by L R => L.length + R.length

theorem mergeList_nil_left (R : List Int) : mergeList [] R = R := by
  cases R <;> simp [mergeList]

theorem mergeList_nil_right (L : List Int) : mergeList L [] = L := by
  cases L <;> simp [mergeList]

theorem mergeList_cons_cons (a b : Int) (L2 R2 : List Int) :
    mergeList (a :: L2) (b :: R2) =
    if a ≤ b then a :: mergeList L2 (b :: R2) else b :: mergeList (a :: L2) R2 := by
  rw [mergeList]

theorem mergeList_perm : ∀ (L R : List Int), (mergeList L R).Perm (L ++ R) := by
  intro L
  induction L with
  | nil => intro R; rw [mergeList_nil_left]; simp
  | cons a L2 ihL =>
    intro R
    induction R with
    | nil => rw [mergeList_nil_right]; simp
    | cons b R2 ihR =>
      rw [mergeList_cons_cons]
      by_cases hab : a ≤ b
      · rw [if_pos hab]
        exact (ihL (b :: R2)).cons a
      · rw [if_neg hab]
        have h2 := ihR.cons b
        have h3 : (b :: ((a :: L2) ++ R2)).Perm ((a :: L2) ++ (b :: R2)) :=
          List.perm_middle.symm
        exact h2.trans h3

theorem mergeList_sorted : ∀ (L R : List Int), L.Sorted (· ≤ ·) →
    R.Sorted (· ≤ ·) → (mergeList L R).Sorted (· ≤ ·) := by
  intro L
  induction L with
  | nil => intro R _ hR; rw [mergeList_nil_left]; exact hR
  | cons a L2 ihL =>
    intro R hL hR
    induction R with
    | nil => rw [mergeList_nil_right]; exact hL
    | cons b R2 ihR =>
      rw [mergeList_cons_cons]
      rw [List.sorted_cons] at hL hR
      by_cases hab : a ≤ b
      · rw [if_pos hab, List.sorted_cons]
        constructor
        · intro y hy
          have hy2 : y ∈ L2 ++ (b :: R2) :=
            (mergeList_perm L2 (b :: R2)).mem_iff.mp hy
          rcases List.mem_append.mp hy2 with h | h
          · exact hL.1 y h
          · rcases List.mem_cons.mp h with h | h
            · rw [h]; exact hab
            · exact le_trans hab (hR.1 y h)
        · exact ihL (b :: R2) hL.2 (List.sorted_cons.mpr hR)
      · rw [if_neg hab, List.sorted_cons]
        push_neg at hab
        constructor
        · intro y hy
          have hy2 : y ∈ (a :: L2) ++ R2 :=
            (mergeList_perm (a :: L2) R2).mem_iff.mp hy
          rcases List.mem_append.mp hy2 with h | h
          · rcases List.mem_cons.mp h with h | h
            · rw [h]; exact le_of_lt hab
            · exact le_trans (le_of_lt hab) (hL.1 y h)
          · exact hR.1 y h
        · exact ihR hR.2

theorem mergeList_length (L R : List Int) :
    (mergeList L R).length = L.length + R.length := by
  have := (mergeList_perm L R).length_eq
  simpa using this

theorem take_set_succ (l : List Int) (k : Nat) (x : Int) (h : k < l.length) :
    (l.set k x).take (k + 1) = l.take k ++ [x] := by
  induction l generalizing k with
  | nil => simp at h
  | cons y t ih =>
    cases k with
    | zero => simp
    | succ k =>
      have := ih k (by simpa using h)
      simp [List.set_cons_succ, List.take_succ_cons, this]

theorem drop_set_of_lt (l : List Int) (k m : Nat) (x : Int) (h : k < m) :
    (l.set k x).drop m = l.drop m := by
  induction l generalizing k m with
  | nil => rfl
  | cons y t ih =>
    cases k with
    | zero =>
      cases m with
      | zero => omega
      | succ m => simp
    | succ k =>
      cases m with
      | zero => omega
      | succ m => simpa using ih k m (by omega)

theorem mergeWriteFuel_eq :
    ∀ (n : Nat) (L R values : List Int) (k : Nat),
    n = L.length + R.length → k + n ≤ values.length →
    mergeWriteFuel n values L R k =
      values.take k ++ mergeList L R ++ values.drop (k + n) := by
  intro n
  induction n with
  | zero =>
    intro L R values k hn hk
    have hL : L = [] := List.length_eq_zero.mp (by omega)
    have hR : R = [] := List.length_eq_zero.mp (by omega)
    subst hL; subst hR
    rw [mergeList_nil_left]
    simp [mergeWriteFuel]
  | succ n ih =>
    intro L R values k hn hk
    cases L with
    | nil =>
      cases R with
      | nil => simp at hn
      | cons b R2 =>
        have hred : mergeWriteFuel (n + 1) values [] (b :: R2) k =
            mergeWriteFuel n (values.set k b) [] R2 (k + 1) := by
          rw [mergeWriteFuel]
        rw [hred, ih [] R2 (values.set k b) (k + 1) (by simpa using hn)
          (by simp; omega)]
        rw [mergeList_nil_left, mergeList_nil_left]
        rw [take_set_succ _ _ _ (by omega), drop_set_of_lt _ _ _ _ (by omega)]
        have e1 : k + 1 + n = k + (n + 1) := by omega
        rw [e1]
        simp
    | cons a L2 =>
      cases R with
      | nil =>
        have hred : mergeWriteFuel (n + 1) values (a :: L2) [] k =
            mergeWriteFuel n (values.set k a) L2 [] (k + 1) := by
          rw [mergeWriteFuel]
        rw [hred, ih L2 [] (values.set k a) (k + 1) (by simp at hn ⊢; omega)
          (by simp; omega)]
        rw [mergeList_nil_right, mergeList_nil_right]
        rw [take_set_succ _ _ _ (by omega), drop_set_of_lt _ _ _ _ (by omega)]
        have e1 : k + 1 + n = k + (n + 1) := by omega
        rw [e1]
        simp
      | cons b R2 =>
        by_cases hab : a ≤ b
        · have hred : mergeWriteFuel (n + 1) values (a :: L2) (b :: R2) k =
              mergeWriteFuel n (values.set k a) L2 (b :: R2) (k + 1) := by
            rw [mergeWriteFuel]
            simp [hab]
          rw [hred, ih L2 (b :: R2) (values.set k a) (k + 1)
            (by simp at hn ⊢; omega) (by simp; omega)]
          rw [mergeList_cons_cons, if_pos hab]
          rw [take_set_succ _ _ _ (by omega), drop_set_of_lt _ _ _ _ (by omega)]
          have e1 : k + 1 + n = k + (n + 1) := by omega
          rw [e1]
          simp
        · have hred : mergeWriteFuel (n + 1) values (a :: L2) (b :: R2) k =
              mergeWriteFuel n (values.set k b) (a :: L2) R2 (k + 1) := by
            rw [mergeWriteFuel]
            simp [hab]
          rw [hred, ih (a :: L2) R2 (values.set k b) (k + 1)
            (by simp at hn ⊢; omega) (by simp; omega)]
          rw [mergeList_cons_cons, if_neg hab]
          rw [take_set_succ _ _ _ (by omega), drop_set_of_lt _ _ _ _ (by omega)]
          have e1 : k + 1 + n = k + (n + 1) := by omega
          rw [e1]
          simp

theorem merge_animation_eq (values : List Int) (start mid e : Nat)
    (h1 : start ≤ mid) (h2 : mid < e) (h3 : e < values.length) :
    merge_animation values start mid e =
      values.take start ++
        mergeList (seg values start mid) (seg values (mid + 1) e) ++
        values.drop (e + 1) := by
  have hLdef : (values.drop start).take (mid + 1 - start) = seg values start mid := rfl
  have hRdef : (values.drop (mid + 1)).take (e + 1 - (mid + 1)) =
      seg values (mid + 1) e := rfl
  have hLlen : (seg values start mid).length = mid + 1 - start :=
    length_seg _ _ _ h1 (by omega)
  have hRlen : (seg values (mid + 1) e).length = e + 1 - (mid + 1) :=
    length_seg _ _ _ (by omega) h3
  unfold merge_animation
  rw [hLdef, hRdef]
  rw [mergeWriteFuel_eq ((seg values start mid).length + (seg values (mid + 1) e).length)
    (seg values start mid) (seg values (mid + 1) e) values start rfl
    (by omega)]
  congr 2
  omega

theorem merge_animation_seg (values : List Int) (start mid e : Nat)
    (h1 : start ≤ mid) (h2 : mid < e) (h3 : e < values.length) :
    seg (merge_animation values start mid e) start e =
      mergeList (seg values start mid) (seg values (mid + 1) e) := by
  rw [merge_animation_eq values start mid e h1 h2 h3]
  have hTlen : (values.take start).length = start := by simp; omega
  have hMlen : (mergeList (seg values start mid) (seg values (mid + 1) e)).length =
      e + 1 - start := by
    rw [mergeList_length, length_seg _ _ _ h1 (by omega),
      length_seg _ _ _ (by omega) h3]
    omega
  unfold seg at hMlen ⊢
  rw [List.append_assoc, List.drop_left' hTlen, List.take_left' hMlen]

theorem merge_animation_base (values : List Int) (start mid e : Nat)
    (h1 : start ≤ mid) (h2 : mid < e) (h3 : e < values.length) :
    (merge_animation values start mid e).length = values.length ∧
    (merge_animation values start mid e).Perm values ∧
    (∀ k, k < start ∨ e < k →
      geti (merge_animation values start mid e) k = geti values k) ∧
    (seg (merge_animation values start mid e) start e).Perm
      (seg values start e) := by
  have heq := merge_animation_eq values start mid e h1 h2 h3
  have hTlen : (values.take start).length = start := by
    rw [List.length_take]; omega
  have hLlen : (seg values start mid).length = mid + 1 - start :=
    length_seg _ _ _ h1 (by omega)
  have hRlen : (seg values (mid + 1) e).length = e + 1 - (mid + 1) :=
    length_seg _ _ _ (by omega) h3
  have hMlen : (mergeList (seg values start mid) (seg values (mid + 1) e)).length =
      e + 1 - start := by
    rw [mergeList_length, hLlen, hRlen]; omega
  have hTMlen : (values.take start ++
      mergeList (seg values start mid) (seg values (mid + 1) e)).length = e + 1 := by
    rw [List.length_append, hTlen, hMlen]; omega
  have hsplit : seg values start e = seg values start mid ++ seg values (mid + 1) e :=
    seg_split values start mid e h1 h2
  have hdecomp : values.take start ++ seg values start e ++ values.drop (e + 1) =
      values := seg_decomp values start e (by omega) h3
  have hcomb : values.take start ++
      (seg values start mid ++ seg values (mid + 1) e) ++ values.drop (e + 1) =
      values := by rw [← hsplit]; exact hdecomp
  refine ⟨?_, ?_, ?_, ?_⟩
  · rw [heq]
    simp only [List.length_append, hTlen, hMlen, List.length_drop]
    omega
  · rw [heq]
    have hMperm := mergeList_perm (seg values start mid) (seg values (mid + 1) e)
    exact ((hMperm.append_left (values.take start)).append_right
      (values.drop (e + 1))).trans (List.Perm.of_eq hcomb)
  · intro k hk
    rw [heq]
    rcases hk with hk | hk
    · rw [geti_append_left _ _ _ (by rw [hTMlen]; omega)]
      rw [geti_append_left _ _ _ (by rw [hTlen]; omega)]
      exact geti_take_lt _ _ _ hk
    · rw [geti_append_right _ _ _ (by rw [hTMlen]; omega), hTMlen, geti_drop]
      have hidx : e + 1 + (k - (e + 1)) = k := by omega
      rw [hidx]
  · rw [merge_animation_seg values start mid e h1 h2 h3]
    exact (mergeList_perm _ _).trans (List.Perm.of_eq hsplit.symm)

theorem merge_animation_sorted (values : List Int) (start mid e : Nat)
    (h1 : start ≤ mid) (h2 : mid < e) (h3 : e < values.length)
    (hL : SortedSeg values start mid) (hR : SortedSeg values (mid + 1) e) :
    SortedSeg (merge_animation values start mid e) start e := by
  have hmlen := (merge_animation_base values start mid e h1 h2 h3).1
  apply (sortedSeg_iff_sorted_seg _ start e (by omega) (by rw [hmlen]; omega)).mpr
  rw [merge_animation_seg values start mid e h1 h2 h3]
  apply mergeList_sorted
  · exact (sortedSeg_iff_sorted_seg values start mid h1 (by omega)).mp hL
  · exact (sortedSeg_iff_sorted_seg values (mid + 1) e (by omega) h3).mp hR

/-- `merge_sort_animation(bars, values, start, end)`
(`src/Resources/Code_Examples/sorting_algorithms_manim.py`, lines 163-179):
`if start < end: mid = (start + end) // 2`, recurse on both halves, then
`merge_animation(bars, values, start, mid, end)`.  There is no recursion cap
here. -/
def merge_sort_animation (values : List Int) (start e : Nat) : List Int :=
  if h : start < e then
    merge_animation
      (merge_sort_animation (merge_sort_animation values start ((start + e) / 2))
        ((start + e) / 2 + 1) e)
      start ((start + e) / 2) e
  else values
termination_by e - start
decreasing_by
  · omega
  · omega

theorem merge_sort_animation_spec :
    ∀ (n : Nat) (values : List Int) (start e : Nat), e - start ≤ n →
    e < values.length →
    (merge_sort_animation values start e).length = values.length ∧
    (merge_sort_animation values start e).Perm values ∧
    (∀ k, k < start ∨ e < k →
      geti (merge_sort_animation values start e) k = geti values k) ∧
    SortedSeg (merge_sort_animation values start e) start e := by
  intro n
  induction n with
  | zero =>
    intro values start e hn he
    rw [merge_sort_animation.eq_def, dif_neg (by omega : ¬ start < e)]
    refine ⟨rfl, List.Perm.refl _, fun k _ => rfl, ?_⟩
    intro j k hj hjk hk
    have : j = k := by omega
    rw [this]
  | succ n ih =>
    intro values start e hn he
    by_cases hse : start < e
    · have hm1 : start ≤ (start + e) / 2 := by omega
      have hm2 : (start + e) / 2 < e := by omega
      obtain ⟨ih1len, ih1perm, ih1out, ih1sorted⟩ :=
        ih values start ((start + e) / 2) (by omega) (by omega)
      set v1 := merge_sort_animation values start ((start + e) / 2) with hv1
      obtain ⟨ih2len, ih2perm, ih2out, ih2sorted⟩ :=
        ih v1 ((start + e) / 2 + 1) e (by omega) (by omega)
      set v2 := merge_sort_animation v1 ((start + e) / 2 + 1) e with hv2
      have hred : merge_sort_animation values start e =
          merge_animation v2 start ((start + e) / 2) e := by
        conv_lhs => rw [merge_sort_animation.eq_def]
        rw [dif_pos hse]
      obtain ⟨hblen, hbperm, hbout, _⟩ :=
        merge_animation_base v2 start ((start + e) / 2) e hm1 hm2 (by omega)
      rw [hred]
      refine ⟨by omega, (hbperm.trans ih2perm).trans ih1perm, ?_, ?_⟩
      · intro k hk
        rw [hbout k hk, ih2out k (by omega), ih1out k (by omega)]
      · apply merge_animation_sorted v2 start ((start + e) / 2) e hm1 hm2 (by omega)
        · exact sortedSeg_congr v2 v1 start ((start + e) / 2)
            (fun m hm1' hm2' => ih2out m (by omega)) ih1sorted
        · exact ih2sorted
    · rw [merge_sort_animation.eq_def, dif_neg hse]
      refine ⟨rfl, List.Perm.refl _, fun k _ => rfl, ?_⟩
      intro j k hj hjk hk
      have : j = k := by omega
      rw [this]

/-!
Models of the Python built-ins the scenes use.  `sorted(...)` returns a
sorted permutation of its argument (its internal algorithm is irrelevant to
any claim); it is modelled by insertion sort.
-/

/-- Ordered insertion, the helper for the model of Python's `sorted`. -/
def insertOrd (x : Int) : List Int → List Int
  | [] => [x]
  | y :: t => if x ≤ y then x :: y :: t else y :: insertOrd x t

/-- Model of Python's built-in `sorted(...)`: a sorted permutation of the
input. -/
def pySorted (l : List Int) : List Int := l.foldr insertOrd []

theorem insertOrd_perm (x : Int) (l : List Int) :
    (insertOrd x l).Perm (x :: l) := by
  induction l with
  | nil => exact List.Perm.refl _
  | cons y t ih =>
    rw [insertOrd]
    by_cases h : x ≤ y
    · rw [if_pos h]
    · rw [if_neg h]
      exact (ih.cons y).trans (List.Perm.swap x y t)

theorem insertOrd_sorted (x : Int) (l : List Int) (hl : l.Sorted (· ≤ ·)) :
    (insertOrd x l).Sorted (· ≤ ·) := by
  induction l with
  | nil => simp [insertOrd]
  | cons y t ih =>
    rw [insertOrd]
    rw [List.sorted_cons] at hl
    by_cases h : x ≤ y
    · rw [if_pos h, List.sorted_cons]
      refine ⟨?_, List.sorted_cons.mpr hl⟩
      intro b hb
      rcases List.mem_cons.mp hb with hb | hb
      · rw [hb]; exact h
      · exact le_trans h (hl.1 b hb)
    · rw [if_neg h, List.sorted_cons]
      push_neg at h
      constructor
      · intro b hb
        have hb2 : b ∈ x :: t := (insertOrd_perm x t).mem_iff.mp hb
        rcases List.mem_cons.mp hb2 with hb2 | hb2
        · rw [hb2]; exact le_of_lt h
        · exact hl.1 b hb2
      · exact ih hl.2

theorem pySorted_perm (l : List Int) : (pySorted l).Perm l := by
  induction l with
  | nil => exact List.Perm.refl _
  | cons x t ih =>
    have h1 : pySorted (x :: t) = insertOrd x (pySorted t) := rfl
    rw [h1]
    exact (insertOrd_perm x (pySorted t)).trans (ih.cons x)

theorem pySorted_sorted (l : List Int) : (pySorted l).Sorted (· ≤ ·) := by
  induction l with
  | nil => simp [pySorted]
  | cons x t ih => exact insertOrd_sorted x (pySorted t) ih

theorem sorted_full_of_sortedSeg (res : List Int)
    (hs : SortedSeg res 0 (res.length - 1)) : res.Sorted (· ≤ ·) := by
  by_cases hnil : res = []
  · rw [hnil]; simp
  · have hlen : 1 ≤ res.length := by
      cases res
      · exact absurd rfl hnil
      · simp
    have hbridge := (sortedSeg_iff_sorted_seg res 0 (res.length - 1)
      (by omega) (by omega)).mp hs
    have hseg : seg res 0 (res.length - 1) = res := by
      unfold seg
      rw [List.drop_zero]
      have he : res.length - 1 + 1 - 0 = res.length := by omega
      rw [he, List.take_length]
    rw [hseg] at hbridge
    exact hbridge

/-!
The final bar-height data of each sorting scene.

Week1 `SortingAlgorithmsForFinance` (`src/Week1/sorting_algorithms_manim.py`):
each of `visualize_quicksort` (lines 226-230), `visualize_mergesort`
(lines 281-291) and `visualize_introsort` (lines 357-361) ends by
transforming the bars into `create_bars(sorted(data))`, so the displayed
final data is `sorted(data)`.

Code_Examples `SortingAlgorithm`
(`src/Resources/Code_Examples/sorting_algorithms_manim.py`):
`quick_sort_scene` (lines 43-66) runs
`quick_sort_animation(bars, values, 0, len(values) - 1)` and never re-sorts
the bars afterwards; `merge_sort_scene` (lines 118-161) rebuilds the bars
from `sorted_values` produced by
`merge_sort_animation(temp_bars, sorted_values, 0, len(values) - 1)`;
`intro_sort_scene` (lines 226-277) rebuilds them from `sorted(values)`.
-/

def visualize_quicksort_final (data : List Int) : List Int := pySorted data

def visualize_mergesort_final (data : List Int) : List Int := pySorted data

def visualize_introsort_final (data : List Int) : List Int := pySorted data

def quick_sort_scene_final (values : List Int) : List Int :=
  quick_sort_animation values 0 (values.length - 1)

def merge_sort_scene_final (values : List Int) : List Int :=
  merge_sort_animation values 0 (values.length - 1)

def intro_sort_scene_final (values : List Int) : List Int := pySorted values

/-!
Model of `random.shuffle` for C5.  CPython's `random.shuffle(x)` is the
Fisher-Yates loop
`for i in reversed(range(1, len(x))): j = _randbelow(i + 1); x[i], x[j] = x[j], x[i]`.
The draws `j` come from the `random` module's global Mersenne-Twister state.
None of the scripts seed that state (`np.random.seed(42)` in the Week1 script
seeds NumPy's separate generator, not the `random` module), so the stream of
draws is not fixed at authoring time; it is modelled as an explicit argument
`js`, each entry reduced `mod (i + 1)` into the range `_randbelow(i + 1)`
guarantees. -/
def fisherYatesGo (x : List Int) : Nat → List Nat → List Int
  | 0, _ => x
  | _ + 1, [] => x
  | i + 1, j :: rest => fisherYatesGo (listSwap x (i + 1) (j % (i + 2))) i rest

/-- `random.shuffle(x)` driven by the draw stream `js`. -/
def random_shuffle (x : List Int) (js : List Nat) : List Int :=
  fisherYatesGo x (x.length - 1) js

/-- The Week1 dataset `data_quicksort = list(range(1, data_size + 1))` with
`data_size = 15` (`src/Week1/sorting_algorithms_manim.py`, lines 120-122),
before `random.shuffle(data_quicksort)` is applied; the Code_Examples scenes
build the same list `list(range(1, 16))`. -/
def week1_dataset : List Int := (List.range 15).map (fun k => (k : Int) + 1)

/-!
Filesystem-effect model for C6.  A state carries the existing directories and
files, the current working directory, and whether new directories can be
created (the only failure mode the claim and spec discuss). -/
structure FileSys where
  dirs : List String
  files : List String
  creatable : Bool
  cwd : String
deriving DecidableEq

/-- Relative-path resolution against the current working directory. -/
def pjoin (c s : String) : String := if c = "" then s else c ++ "/" ++ s

/-- `os.makedirs(d, exist_ok=True)`: a pre-existing directory is not an
error; otherwise the directory is created, failing only when creation is
impossible. -/
def makedirsExistOk (d : String) (fs : FileSys) : Except String FileSys :=
  if d ∈ fs.dirs then Except.ok fs
  else if fs.creatable then Except.ok { fs with dirs := d :: fs.dirs }
  else Except.error d

/-- Writing an output file (`plt.savefig` / a rendered diagram). -/
def writeFileFS (p : String) (fs : FileSys) : FileSys :=
  { fs with files := fs.files ++ [p] }

/-- `os.chdir`. -/
def chdirFS (d : String) (fs : FileSys) : FileSys := { fs with cwd := d }

/-- The effect trace of
`src/Resources/Code_Examples/sorting_algorithm_comparison_graph.py`
(lines 140-152): `os.makedirs('Resources/Slides', exist_ok=True)`, then
`plt.savefig` of the `.png` and of the `.pdf` at the two fixed relative
paths. -/
def comparison_graph_script (fs : FileSys) : Except String FileSys :=
  match makedirsExistOk (pjoin fs.cwd "Resources/Slides") fs with
  | Except.error msg => Except.error msg
  | Except.ok fs1 =>
    Except.ok (writeFileFS
      (pjoin fs1.cwd "Resources/Slides/sorting_algorithm_comparison.pdf")
      (writeFileFS
        (pjoin fs1.cwd "Resources/Slides/sorting_algorithm_comparison.png")
        fs1))

/-- The effect trace of `main()` in `src/Week3/threading_visualization.py`
(lines 379-393): `os.makedirs('diagrams', exist_ok=True)`,
`os.chdir('diagrams')`, then the four `dot.render(output_file, cleanup=True)`
calls, each leaving `<output_file>.png` in the current directory (the
intermediate dot source is removed by `cleanup=True`). -/
def threading_visualization_main (fs : FileSys) : Except String FileSys :=
  match makedirsExistOk (pjoin fs.cwd "diagrams") fs with
  | Except.error msg => Except.error msg
  | Except.ok fs1 =>
    let fs2 := chdirFS (pjoin fs1.cwd "diagrams") fs1
    Except.ok (writeFileFS (pjoin fs2.cwd "threading_performance_comparison.png")
      (writeFileFS (pjoin fs2.cwd "thread_safety_issues.png")
        (writeFileFS (pjoin fs2.cwd "thread_synchronization.png")
          (writeFileFS (pjoin fs2.cwd "threading_architecture.png") fs2))))

/-!
The hard-coded label tables of C7, copied literally from
`src/Resources/Code_Examples/sorting_algorithm_comparison_graph.py`
(lines 17-28) and `src/Week1/sorting_algorithms_manim.py` (lines 90-96),
together with every later operation of each script that touches them. -/

def algorithms : List String :=
  ["Bubble Sort", "Insertion Sort", "Merge Sort", "QuickSort", "HeapSort",
   "Introsort (std::sort)"]

def best_case : List String :=
  ["O(n)", "O(n)", "O(n log n)", "O(n log n)", "O(n log n)", "O(n log n)"]

def worst_case : List String :=
  ["O(n²)", "O(n²)", "O(n log n)", "O(n²)", "O(n log n)", "O(n log n)"]

def used_in_finance : List String :=
  ["No", "Sometimes", "Yes", "Sometimes", "Yes", "Yes"]

def notes : List String :=
  ["Too slow for large datasets",
   "Good for small or nearly sorted datasets",
   "Used in external sorting (e.g., large-scale trading data)",
   "Fast but bad worst-case performance",
   "Good for priority queues",
   "Hybrid: QuickSort + HeapSort + InsertionSort"]

structure ChartTables where
  algorithmsT : List String
  bestT : List String
  worstT : List String
  usedT : List String
  notesT : List String
deriving DecidableEq

def initialChartTables : ChartTables :=
  ⟨algorithms, best_case, worst_case, used_in_finance, notes⟩

/-- `pd.DataFrame(...)` / `ax1.table(cellText=df.values, ...)`: each row is
read from the five lists. -/
def dataFrameRows (t : ChartTables) : List (List String) :=
  (List.range t.algorithmsT.length).map fun i =>
    [t.algorithmsT.getD i "", t.bestT.getD i "", t.worstT.getD i "",
     t.usedT.getD i "", t.notesT.getD i ""]

/-- The cell-highlight colour computed from `worst_case[i]` (lines 67-70). -/
def worstCellColor (w : String) : String :=
  if w = "O(n²)" then "#FFCCCC" else "#CCFFCC"

/-- The cell-highlight colour computed from `used_in_finance[i]`
(lines 73-78). -/
def financeCellColor (u : String) : String :=
  if u = "Yes" then "#CCFFCC"
  else if u = "Sometimes" then "#FFFFCC"
  else "#FFCCCC"

structure ChartRun where
  tables : ChartTables
  df : List (List String)
  worstColors : List String
  financeColors : List String
  yesCount : Nat
  sometimesCount : Nat
  noCount : Nat
deriving DecidableEq

/-- The whole chart script threaded over the label tables: building the
DataFrame, highlighting cells, and counting the `Used in Finance` categories
for the pie chart all only read the lists; `tables` is the state of the five
lists after the last operation. -/
def comparison_graph_run : ChartRun :=
  { tables := initialChartTables
    df := dataFrameRows initialChartTables
    worstColors := initialChartTables.worstT.map worstCellColor
    financeColors := initialChartTables.usedT.map financeCellColor
    yesCount := initialChartTables.usedT.count "Yes"
    sometimesCount := initialChartTables.usedT.count "Sometimes"
    noCount := initialChartTables.usedT.count "No" }

/-- `table_data` of `algorithm_comparison_scene`
(`src/Week1/sorting_algorithms_manim.py`, lines 90-96). -/
def table_data : List (List String) :=
  [["Algorithm", "Average", "Worst", "Memory", "Stable", "Use in Finance"],
   ["Quick Sort", "O(n log n)", "O(n²)", "O(log n)", "No", "Risky"],
   ["Merge Sort", "O(n log n)", "O(n log n)", "O(n)", "Yes",
    "When stability matters"],
   ["Heap Sort", "O(n log n)", "O(n log n)", "O(1)", "No",
    "Memory-constrained"],
   ["Introsort", "O(n log n)", "O(n log n)", "O(log n)", "No",
    "Production systems"]]

/-- The Week1 scene's uses of `table_data`: `Table(table_data)` and
`introsort_row = table.get_rows()[4]` read it; the scale/indicate/animate
calls do not touch the list.  Returns the list after the scene together with
the row that was read. -/
def week1_table_run : List (List String) × List String :=
  (table_data, table_data.getD 4 [])

/-!
Concurrency-surface model for C8: the modules each script imports and the
kinds of operations its statements perform, read off the seven source files.
The effect vocabulary deliberately includes thread/lock/queue/network
constructors so that their absence from every trace is a statement about the
scripts, not about the vocabulary. -/

inductive ScriptEffect where
  | declareNode
  | declareEdge
  | setGraphAttr
  | renderDiagramFile
  | buildMobject
  | playAnimation
  | waitPause
  | buildFigure
  | writeImageFile
  | makeDirectory
  | changeDirectory
  | printLine
  | spawnThread
  | acquireLock
  | createQueue
  | openNetworkConnection
deriving DecidableEq

def isConcurrencyEffect : ScriptEffect → Bool
  | ScriptEffect.spawnThread => true
  | ScriptEffect.acquireLock => true
  | ScriptEffect.createQueue => true
  | ScriptEffect.openNetworkConnection => true
  | _ => false

def scriptPaths : List String :=
  ["Week1/sorting_algorithms_manim.py",
   "Week3/threading_visualization.py",
   "Week3/tradengn_demo.py",
   "Week4/trade_ngin_visualization.py",
   "Week4/distributed_systems_visualization.py",
   "Resources/Code_Examples/sorting_algorithms_manim.py",
   "Resources/Code_Examples/sorting_algorithm_comparison_graph.py"]

/-- The import list of each script, from its `import`/`from ... import`
lines. -/
def scriptImports (s : String) : List String :=
  if s = "Week1/sorting_algorithms_manim.py" then ["manim", "numpy", "random"]
  else if s = "Week3/threading_visualization.py" then ["graphviz", "os"]
  else if s = "Week3/tradengn_demo.py" then ["manim", "numpy"]
  else if s = "Week4/trade_ngin_visualization.py" then ["manim", "numpy"]
  else if s = "Week4/distributed_systems_visualization.py" then
    ["manim", "numpy"]
  else if s = "Resources/Code_Examples/sorting_algorithms_manim.py" then
    ["manim", "numpy", "random"]
  else if s = "Resources/Code_Examples/sorting_algorithm_comparison_graph.py" then
    ["matplotlib.pyplot", "numpy", "pandas", "seaborn", "os",
     "matplotlib.colors"]
  else []

/-- The Python standard-library modules that create threads, locks, queues,
or network connections. -/
def concurrencyModules : List String :=
  ["threading", "_thread", "multiprocessing", "concurrent.futures", "asyncio",
   "queue", "socket", "ssl", "selectors", "http.client", "urllib.request",
   "requests", "subprocess"]

/-- The kinds of operations each script performs, read off its statements:
the graphviz script declares nodes/edges/attributes and renders files, the
manim scripts build mobjects and play/wait animations, the chart script
builds a figure, prints, makes a directory and writes image files.  The
"threading" content of the Week3/Week4 scripts consists solely of such
drawing operations. -/
def scriptEffectKinds (s : String) : List ScriptEffect :=
  if s = "Week3/threading_visualization.py" then
    [ScriptEffect.makeDirectory, ScriptEffect.changeDirectory,
     ScriptEffect.setGraphAttr, ScriptEffect.declareNode,
     ScriptEffect.declareEdge, ScriptEffect.renderDiagramFile,
     ScriptEffect.printLine]
  else if s = "Resources/Code_Examples/sorting_algorithm_comparison_graph.py" then
    [ScriptEffect.printLine, ScriptEffect.buildFigure,
     ScriptEffect.makeDirectory, ScriptEffect.writeImageFile]
  else if s ∈ scriptPaths then
    [ScriptEffect.buildMobject, ScriptEffect.playAnimation,
     ScriptEffect.waitPause]
  else []

/-!
Model of Week1 `create_bars` for C10 (`src/Week1/sorting_algorithms_manim.py`,
lines 71-81).  Only the bar heights matter to the claim.  `max(values)`
raises `ValueError` on an empty list and `val / 0` raises
`ZeroDivisionError`; both error outcomes are modelled as `none`.  Heights are
modelled in `ℚ`; the claim speaks about the exact values of the expression
`(val / max(values)) * max_height`. -/

/-- Python `max(values)`: `none` models the `ValueError` on `[]`. -/
def pyMaxInt : List Int → Option Int
  | [] => none
  | v :: vs => some (vs.foldl max v)

/-- Python `max` on the rational bar heights. -/
def pyMaxRat : List ℚ → Option ℚ
  | [] => none
  | v :: vs => some (vs.foldl max v)

/-- The list of heights `(val / max(values)) * max_height` built by the
`create_bars` loop. -/
def create_bars_heights (values : List Int) (maxHeight : ℚ) : Option (List ℚ) :=
  match pyMaxInt values with
  | none => none
  | some m =>
    if m = 0 then none
    else some (values.map fun (w : Int) => ((w : ℚ) / (m : ℚ)) * maxHeight)

theorem foldl_max_self_le {α : Type} [LinearOrder α] :
    ∀ (vs : List α) (v : α), v ≤ vs.foldl max v := by
  intro vs
  induction vs with
  | nil => intro v; exact le_refl v
  | cons y t ih =>
    intro v
    exact le_trans (le_max_left v y) (ih (max v y))

theorem foldl_max_mem {α : Type} [LinearOrder α] :
    ∀ (vs : List α) (v : α), vs.foldl max v = v ∨ vs.foldl max v ∈ vs := by
  intro vs
  induction vs with
  | nil => intro v; exact Or.inl rfl
  | cons y t ih =>
    intro v
    rw [List.foldl_cons]
    rcases ih (max v y) with h | h
    · rcases max_choice v y with hm | hm
      · exact Or.inl (h.trans hm)
      · right
        rw [h.trans hm]
        exact List.mem_cons_self y t
    · exact Or.inr (List.mem_cons_of_mem y h)

theorem le_foldl_max {α : Type} [LinearOrder α] :
    ∀ (vs : List α) (v x : α), x ∈ vs → x ≤ vs.foldl max v := by
  intro vs
  induction vs with
  | nil => intro v x hx; simp at hx
  | cons y t ih =>
    intro v x hx
    rcases List.mem_cons.mp hx with hx | hx
    · rw [hx, List.foldl_cons]
      exact le_trans (le_max_right v y) (foldl_max_self_le t (max v y))
    · rw [List.foldl_cons]
      exact ih (max v y) x hx

/-!
Claim theorems.
-/

/-- C1, counterexample: on the list of distinct integers `[4,3,2,1]` the
Week1 `quick_sort_animation` over the full index range returns `[1,3,2,4]`,
and on `[11,...,1]` the Code_Examples version returns `[1,10,...,2,11]`;
neither is sorted, because the demo recursion caps skip the recursive
calls. -/
theorem c1_capped_quicksort_counterexample :
    quick_sort_animation_week1 [4, 3, 2, 1] 0 3 = [1, 3, 2, 4] ∧
    ¬ ([1, 3, 2, 4] : List Int).Sorted (· ≤ ·) ∧
    quick_sort_animation [11, 10, 9, 8, 7, 6, 5, 4, 3, 2, 1] 0 10 =
      [1, 10, 9, 8, 7, 6, 5, 4, 3, 2, 11] ∧
    ¬ ([1, 10, 9, 8, 7, 6, 5, 4, 3, 2, 11] : List Int).Sorted (· ≤ ·) := by
  refine ⟨?_, by decide, ?_, by decide⟩
  · have hp : lomutoPartition [4, 3, 2, 1] 0 3 = ([1, 3, 2, 4], 0) := by decide
    rw [quick_sort_animation_week1.eq_def, hp]
    norm_num
  · have hp : lomutoPartition [11, 10, 9, 8, 7, 6, 5, 4, 3, 2, 1] 0 10 =
        ([1, 10, 9, 8, 7, 6, 5, 4, 3, 2, 11], 0) := by decide
    rw [quick_sort_animation.eq_def, hp]
    norm_num

/-- C1, amended: with the animation cap removed — the two recursive calls
made unconditionally, which is the textbook quicksort both capped routines
abbreviate — running the routine over the full index range
`(low = 0, high = len - 1)` leaves every list of integers sorted in
non-decreasing order (and a permutation of the input). -/
theorem c1_uncapped_quicksort_sorts (arr : List Int) :
    (quickSortUncapped arr 0 (arr.length - 1)).Perm arr ∧
    (quickSortUncapped arr 0 (arr.length - 1)).Sorted (· ≤ ·) := by
  by_cases hnil : arr = []
  · subst hnil
    have hred : quickSortUncapped [] 0 ((List.length ([] : List Int)) - 1) = [] := by
      rw [quickSortUncapped.eq_def]
      norm_num
    rw [hred]
    exact ⟨List.Perm.refl _, by simp⟩
  · have hlen : 1 ≤ arr.length := by
      cases arr
      · exact absurd rfl hnil
      · simp
    obtain ⟨hl, hperm, _, hsorted⟩ :=
      quickSortUncapped_spec arr.length arr 0 (arr.length - 1) (by omega) (by omega)
    refine ⟨hperm, ?_⟩
    apply sorted_full_of_sortedSeg
    rw [hl]
    exact hsorted

/-- C2: the partition phase of `quick_sort_animation` is a correct Lomuto
partition: for `low < high` within bounds, after the loop and the final
pivot swap the pivot (the element originally at index `high`) sits at
`p ∈ [low, high]`, every element at `[low, p-1]` is `≤` the pivot, every
element at `[p+1, high]` is `>` the pivot, and `values[low..high]` is a
permutation of its previous contents. -/
theorem c2_partition_is_correct_lomuto (arr : List Int) (low high : Nat)
    (h1 : low < high) (h2 : high < arr.length) :
    low ≤ (lomutoPartition arr low high).2 ∧
    (lomutoPartition arr low high).2 ≤ high ∧
    geti (lomutoPartition arr low high).1 (lomutoPartition arr low high).2 =
      geti arr high ∧
    (∀ k, low ≤ k → k < (lomutoPartition arr low high).2 →
      geti (lomutoPartition arr low high).1 k ≤ geti arr high) ∧
    (∀ k, (lomutoPartition arr low high).2 < k → k ≤ high →
      geti arr high < geti (lomutoPartition arr low high).1 k) ∧
    (seg (lomutoPartition arr low high).1 low high).Perm (seg arr low high) := by
  obtain ⟨hp1, hp2, hlen, hpv, hle, hgt, hout, hperm⟩ :=
    lomutoPartition_spec arr low high h1 h2
  refine ⟨hp1, hp2, hpv, hle, hgt, ?_⟩
  exact perm_seg_of_agree _ _ low high hlen hperm
    (fun k hk => hout k (Or.inl hk)) (fun k hk => hout k (Or.inr hk))
    (le_of_lt h1) h2

/-- Witness for C2 at `arr = [2,3,1]`, `low = 0`, `high = 2`. -/
theorem c2_partition_is_correct_lomuto_witness :
    (0 : Nat) < 2 ∧ 2 < ([2, 3, 1] : List Int).length ∧
    (0 ≤ (lomutoPartition [2, 3, 1] 0 2).2 ∧
      (lomutoPartition [2, 3, 1] 0 2).2 ≤ 2 ∧
      geti (lomutoPartition [2, 3, 1] 0 2).1 (lomutoPartition [2, 3, 1] 0 2).2 =
        geti [2, 3, 1] 2 ∧
      (∀ k, 0 ≤ k → k < (lomutoPartition [2, 3, 1] 0 2).2 →
        geti (lomutoPartition [2, 3, 1] 0 2).1 k ≤ geti [2, 3, 1] 2) ∧
      (∀ k, (lomutoPartition [2, 3, 1] 0 2).2 < k → k ≤ 2 →
        geti [2, 3, 1] 2 < geti (lomutoPartition [2, 3, 1] 0 2).1 k) ∧
      (seg (lomutoPartition [2, 3, 1] 0 2).1 0 2).Perm (seg [2, 3, 1] 0 2)) :=
  ⟨by decide, by decide,
    c2_partition_is_correct_lomuto [2, 3, 1] 0 2 (by decide) (by decide)⟩

/-- C3: `merge_animation` is a textbook merge: if `values[start..mid]` and
`values[mid+1..end]` are sorted, then afterwards `values[start..end]` is
sorted, is a permutation of its previous contents, and entries outside
`[start, end]` are unchanged. -/
theorem c3_merge_animation_correct (values : List Int) (start mid e : Nat)
    (h1 : start ≤ mid) (h2 : mid < e) (h3 : e < values.length)
    (hL : SortedSeg values start mid) (hR : SortedSeg values (mid + 1) e) :
    SortedSeg (merge_animation values start mid e) start e ∧
    (seg (merge_animation values start mid e) start e).Perm
      (seg values start e) ∧
    (∀ k, k < start ∨ e < k →
      geti (merge_animation values start mid e) k = geti values k) := by
  obtain ⟨_, _, hout, hsegperm⟩ := merge_animation_base values start mid e h1 h2 h3
  exact ⟨merge_animation_sorted values start mid e h1 h2 h3 hL hR, hsegperm, hout⟩

/-- Witness for C3 at `values = [2,1,3]`, `start = 0`, `mid = 0`,
`end = 2`. -/
theorem c3_merge_animation_correct_witness :
    (0 : Nat) ≤ 0 ∧ (0 : Nat) < 2 ∧ 2 < ([2, 1, 3] : List Int).length ∧
    SortedSeg [2, 1, 3] 0 0 ∧ SortedSeg [2, 1, 3] 1 2 ∧
    (SortedSeg (merge_animation [2, 1, 3] 0 0 2) 0 2 ∧
      (seg (merge_animation [2, 1, 3] 0 0 2) 0 2).Perm (seg [2, 1, 3] 0 2) ∧
      (∀ k, k < 0 ∨ 2 < k →
        geti (merge_animation [2, 1, 3] 0 0 2) k = geti [2, 1, 3] k)) :=
  ⟨by decide, by decide, by decide,
    (sortedSeg_iff_sorted_seg [2, 1, 3] 0 0 (by decide) (by decide)).mpr (by decide),
    (sortedSeg_iff_sorted_seg [2, 1, 3] 1 2 (by decide) (by decide)).mpr (by decide),
    c3_merge_animation_correct [2, 1, 3] 0 0 2 (by decide) (by decide) (by decide)
      ((sortedSeg_iff_sorted_seg [2, 1, 3] 0 0 (by decide) (by decide)).mpr (by decide))
      ((sortedSeg_iff_sorted_seg [2, 1, 3] 1 2 (by decide) (by decide)).mpr (by decide))⟩

/-- One possible value of the unseeded `random.shuffle(values)` in
`quick_sort_scene`: the descending permutation of `list(range(1, 16))`. -/
def ce_shuffle : List Int :=
  [15, 14, 13, 12, 11, 10, 9, 8, 7, 6, 5, 4, 3, 2, 1]

theorem quick_sort_scene_final_ce_eval :
    quick_sort_scene_final ce_shuffle =
      [1, 14, 13, 12, 11, 10, 9, 8, 7, 6, 5, 4, 3, 2, 15] := by
  have hp : lomutoPartition ce_shuffle 0 14 =
      ([1, 14, 13, 12, 11, 10, 9, 8, 7, 6, 5, 4, 3, 2, 15], 0) := by decide
  show quick_sort_animation ce_shuffle 0 14 = _
  rw [quick_sort_animation.eq_def, hp]
  norm_num

/-- C4, counterexample: in the Code_Examples `quick_sort_scene`, nothing
re-sorts the bars after the recursion-capped `quick_sort_animation`; for the
possible shuffle `[15,...,1]` of the scene's dataset `list(range(1, 16))`,
the bars displayed at the end of the scene are
`[1, 14, 13, ..., 2, 15]`, which is not sorted. -/
theorem c4_quick_sort_scene_counterexample :
    ce_shuffle.Perm week1_dataset ∧
    ¬ (quick_sort_scene_final ce_shuffle).Sorted (· ≤ ·) := by
  constructor
  · decide
  · rw [quick_sort_scene_final_ce_eval]
    decide

/-- C4, amended: the bars end up sorted (the sorted permutation of the
scene's initial data) in all three Week1 scenes and in the Code_Examples
mergesort and introsort scenes; the Code_Examples quicksort scene instead
ends in whatever state the capped `quick_sort_animation` leaves, which is
not sorted for some shuffles. -/
theorem c4_amended_scene_finals_sorted (data values : List Int) :
    (visualize_quicksort_final data).Sorted (· ≤ ·) ∧
    (visualize_quicksort_final data).Perm data ∧
    (visualize_mergesort_final data).Sorted (· ≤ ·) ∧
    (visualize_mergesort_final data).Perm data ∧
    (visualize_introsort_final data).Sorted (· ≤ ·) ∧
    (visualize_introsort_final data).Perm data ∧
    (merge_sort_scene_final values).Sorted (· ≤ ·) ∧
    (merge_sort_scene_final values).Perm values ∧
    (intro_sort_scene_final values).Sorted (· ≤ ·) ∧
    (intro_sort_scene_final values).Perm values := by
  have hmss : (merge_sort_scene_final values).Sorted (· ≤ ·) ∧
      (merge_sort_scene_final values).Perm values := by
    by_cases hnil : values = []
    · subst hnil
      have hred : merge_sort_scene_final ([] : List Int) = [] := by
        unfold merge_sort_scene_final
        rw [merge_sort_animation.eq_def]
        norm_num
      rw [hred]
      exact ⟨by simp, List.Perm.refl _⟩
    · have hlen : 1 ≤ values.length := by
        cases values
        · exact absurd rfl hnil
        · simp
      obtain ⟨hl, hperm, _, hsorted⟩ :=
        merge_sort_animation_spec values.length values 0 (values.length - 1)
          (by omega) (by omega)
      refine ⟨?_, hperm⟩
      apply sorted_full_of_sortedSeg
      show SortedSeg (merge_sort_animation values 0 (values.length - 1)) 0
        ((merge_sort_animation values 0 (values.length - 1)).length - 1)
      rw [hl]
      exact hsorted
  exact ⟨pySorted_sorted data, pySorted_perm data, pySorted_sorted data,
    pySorted_perm data, pySorted_sorted data, pySorted_perm data,
    hmss.1, hmss.2, pySorted_sorted values, pySorted_perm values⟩

/-- C5: the 15-element datasets driving the animations are produced by
`random.shuffle`, whose draws come from the `random` module's global state;
`np.random.seed(42)` (the Week1 script's only seeding, commented "For
reproducibility") seeds NumPy's separate generator and leaves that state
unseeded, so two runs with different draw streams produce different
datasets: the identity stream returns the dataset unchanged while the
all-zero stream does not. -/
theorem c5_shuffled_dataset_depends_on_unseeded_state :
    random_shuffle week1_dataset (List.replicate 14 0) ≠
      random_shuffle week1_dataset
        [14, 13, 12, 11, 10, 9, 8, 7, 6, 5, 4, 3, 2, 1] ∧
    random_shuffle week1_dataset
        [14, 13, 12, 11, 10, 9, 8, 7, 6, 5, 4, 3, 2, 1] = week1_dataset := by
  exact ⟨by decide, by decide⟩

/-- C6: run from the repository root, the chart-generation script fails only
if its output directory cannot be created — a pre-existing
`Resources/Slides` is not an error — and on success writes exactly the two
image files at the fixed relative paths; likewise the diagram-generation
script creates `diagrams` when missing and writes its four diagram images
under that fixed directory. -/
theorem c6_output_directories_and_files (fs : FileSys) (hc : fs.cwd = "") :
    ((∃ msg, comparison_graph_script fs = Except.error msg) ↔
      ("Resources/Slides" ∉ fs.dirs ∧ fs.creatable = false)) ∧
    (∀ fs2, comparison_graph_script fs = Except.ok fs2 →
      fs2.files = fs.files ++
        ["Resources/Slides/sorting_algorithm_comparison.png",
         "Resources/Slides/sorting_algorithm_comparison.pdf"] ∧
      "Resources/Slides" ∈ fs2.dirs) ∧
    ((∃ msg, threading_visualization_main fs = Except.error msg) ↔
      ("diagrams" ∉ fs.dirs ∧ fs.creatable = false)) ∧
    (∀ fs2, threading_visualization_main fs = Except.ok fs2 →
      fs2.files = fs.files ++
        ["diagrams/threading_architecture.png",
         "diagrams/thread_synchronization.png",
         "diagrams/thread_safety_issues.png",
         "diagrams/threading_performance_comparison.png"]) := by
  by_cases h1 : "Resources/Slides" ∈ fs.dirs <;>
    by_cases h3 : "diagrams" ∈ fs.dirs <;>
      by_cases h2 : fs.creatable = true <;>
        simp [comparison_graph_script, threading_visualization_main,
          makedirsExistOk, writeFileFS, chdirFS, pjoin, hc, h1, h2, h3]

/-- An initial state for the C6 witness: empty repository root, directory
creation permitted. -/
def emptyFS : FileSys := ⟨[], [], true, ""⟩

/-- Witness for C6 at the empty repository-root state. -/
theorem c6_output_directories_and_files_witness :
    emptyFS.cwd = "" ∧
    (((∃ msg, comparison_graph_script emptyFS = Except.error msg) ↔
      ("Resources/Slides" ∉ emptyFS.dirs ∧ emptyFS.creatable = false)) ∧
    (∀ fs2, comparison_graph_script emptyFS = Except.ok fs2 →
      fs2.files = emptyFS.files ++
        ["Resources/Slides/sorting_algorithm_comparison.png",
         "Resources/Slides/sorting_algorithm_comparison.pdf"] ∧
      "Resources/Slides" ∈ fs2.dirs) ∧
    ((∃ msg, threading_visualization_main emptyFS = Except.error msg) ↔
      ("diagrams" ∉ emptyFS.dirs ∧ emptyFS.creatable = false)) ∧
    (∀ fs2, threading_visualization_main emptyFS = Except.ok fs2 →
      fs2.files = emptyFS.files ++
        ["diagrams/threading_architecture.png",
         "diagrams/thread_synchronization.png",
         "diagrams/thread_safety_issues.png",
         "diagrams/threading_performance_comparison.png"])) :=
  ⟨rfl, c6_output_directories_and_files emptyFS rfl⟩

/-- C7: the hard-coded label tables are constant for the duration of one
script execution: after every operation of the chart script that touches
them (DataFrame construction, cell highlighting, usage counting) the five
literal lists are unchanged, and the Week1 scene's `table_data` is unchanged
after building the table and reading row 4; the derived usage counts
(3 Yes / 2 Sometimes / 1 No) are computed by reading only. -/
theorem c7_label_tables_constant :
    comparison_graph_run.tables = initialChartTables ∧
    comparison_graph_run.tables.algorithmsT = algorithms ∧
    comparison_graph_run.tables.bestT = best_case ∧
    comparison_graph_run.tables.worstT = worst_case ∧
    comparison_graph_run.tables.usedT = used_in_finance ∧
    comparison_graph_run.tables.notesT = notes ∧
    week1_table_run.1 = table_data ∧
    comparison_graph_run.yesCount = 3 ∧
    comparison_graph_run.sometimesCount = 2 ∧
    comparison_graph_run.noCount = 1 := by
  refine ⟨rfl, rfl, rfl, rfl, rfl, rfl, rfl, ?_, ?_, ?_⟩ <;> decide

/-- C8: no script imports a module that creates threads, locks, queues or
network connections, and no operation kind any script performs is a
concurrency effect — the threading content of the diagram script consists of
node and edge declarations. -/
theorem c8_no_concurrency_constructs :
    (scriptPaths.all fun s =>
      ((scriptImports s).all fun m => !(concurrencyModules.contains m)) &&
      ((scriptEffectKinds s).all fun e2 => !(isConcurrencyEffect e2))) = true ∧
    (scriptEffectKinds "Week3/threading_visualization.py").contains
      ScriptEffect.declareNode = true ∧
    (scriptEffectKinds "Week3/threading_visualization.py").contains
      ScriptEffect.declareEdge = true := by
  refine ⟨?_, ?_, ?_⟩ <;> decide

/-- C9: every call of the two capped `quick_sort_animation` routines and of
`merge_animation` with in-bounds indices leaves the values list a
permutation of what it was before the call. -/
theorem c9_calls_preserve_multiset (arr : List Int) (low high : Nat)
    (h : high < arr.length) (values : List Int) (start mid e : Nat)
    (hs1 : start ≤ mid) (hs2 : mid < e) (hs3 : e < values.length) :
    (quick_sort_animation_week1 arr low high).Perm arr ∧
    (quick_sort_animation arr low high).Perm arr ∧
    (merge_animation values start mid e).Perm values :=
  ⟨(quick_sort_animation_week1_perm (high - low) arr low high (le_refl _) h).2,
   (quick_sort_animation_perm (high - low) arr low high (le_refl _) h).2,
   (merge_animation_base values start mid e hs1 hs2 hs3).2.1⟩

/-- Witness for C9 at `arr = [3,1,2]`, `low = 0`, `high = 2` and
`values = [2,1,3]`, `start = 0`, `mid = 0`, `end = 2`. -/
theorem c9_calls_preserve_multiset_witness :
    2 < ([3, 1, 2] : List Int).length ∧ (0 : Nat) ≤ 0 ∧ (0 : Nat) < 2 ∧
    2 < ([2, 1, 3] : List Int).length ∧
    ((quick_sort_animation_week1 [3, 1, 2] 0 2).Perm [3, 1, 2] ∧
      (quick_sort_animation [3, 1, 2] 0 2).Perm [3, 1, 2] ∧
      (merge_animation [2, 1, 3] 0 0 2).Perm [2, 1, 3]) :=
  ⟨by decide, by decide, by decide, by decide,
    c9_calls_preserve_multiset [3, 1, 2] 0 2 (by decide) [2, 1, 3] 0 0 2
      (by decide) (by decide) (by decide)⟩

/-- C10, counterexample: on `values = [-2, -1]` (non-empty, maximum `-1` is
nonzero) with the default `max_height = 4`, `create_bars` is defined and the
heights follow the claimed formula, but they are `[8, 4]`: the tallest bar
has height `8`, not `max_height = 4`, because the maximum is negative. -/
theorem c10_create_bars_counterexample :
    create_bars_heights [-2, -1] 4 = some [8, 4] ∧
    pyMaxRat [8, 4] = some 8 ∧ (8 : ℚ) ≠ 4 := by
  refine ⟨?_, ?_, by norm_num⟩
  · norm_num [create_bars_heights, pyMaxInt]
  · show some ([(4 : ℚ)].foldl max 8) = some 8
    rw [List.foldl_cons, List.foldl_nil, max_eq_left (by norm_num)]

/-- C10, amended: `create_bars` is defined exactly for non-empty value lists
whose maximum is nonzero (on the empty list or a zero maximum the
`max()`/division step has no defined result), and under that precondition it
returns one bar per input value with height `(values[i] / max(values)) *
max_height`; when the maximum is positive (as in every call in the script)
and `max_height` is non-negative, the tallest bar has height exactly
`max_height`. -/
theorem c10_amended_create_bars (values : List Int) (maxHeight : ℚ) :
    (create_bars_heights values maxHeight = none ↔
      values = [] ∨ pyMaxInt values = some 0) ∧
    (∀ m : Int, pyMaxInt values = some m → m ≠ 0 →
      create_bars_heights values maxHeight =
        some (values.map fun (w : Int) => ((w : ℚ) / (m : ℚ)) * maxHeight) ∧
      (values.map fun (w : Int) => ((w : ℚ) / (m : ℚ)) * maxHeight).length =
        values.length ∧
      (0 < m → 0 ≤ maxHeight →
        pyMaxRat (values.map fun (w : Int) => ((w : ℚ) / (m : ℚ)) * maxHeight) =
          some maxHeight)) := by
  constructor
  · cases values with
    | nil => simp [create_bars_heights, pyMaxInt]
    | cons v vs =>
      simp only [create_bars_heights, pyMaxInt]
      by_cases hm : vs.foldl max v = 0
      · simp [hm]
      · simp [hm]
  · intro m hm hm0
    cases values with
    | nil => simp [pyMaxInt] at hm
    | cons v vs =>
      have hmval : vs.foldl max v = m := by
        simp [pyMaxInt] at hm
        exact hm
      refine ⟨?_, by simp, ?_⟩
      · simp only [create_bars_heights, pyMaxInt, hmval, if_neg hm0]
      · intro hmpos hH
        have hmQ : (0 : ℚ) < (m : ℚ) := by exact_mod_cast hmpos
        have hfle : ∀ w : Int, w ≤ m →
            ((w : ℚ) / (m : ℚ)) * maxHeight ≤ maxHeight := by
          intro w hw
          have hq1 : (w : ℚ) / (m : ℚ) ≤ 1 := by
            rw [div_le_one hmQ]
            exact_mod_cast hw
          calc ((w : ℚ) / (m : ℚ)) * maxHeight ≤ 1 * maxHeight :=
                mul_le_mul_of_nonneg_right hq1 hH
            _ = maxHeight := one_mul _
        have hfm : ((m : ℚ) / (m : ℚ)) * maxHeight = maxHeight := by
          rw [div_self (ne_of_gt hmQ), one_mul]
        have hmap : ((v :: vs).map fun (w : Int) => ((w : ℚ) / (m : ℚ)) * maxHeight) =
            (((v : ℚ) / (m : ℚ)) * maxHeight) ::
              (vs.map fun (w : Int) => ((w : ℚ) / (m : ℚ)) * maxHeight) := rfl
        rw [hmap]
        simp only [pyMaxRat]
        congr 1
        apply le_antisymm
        · rcases foldl_max_mem (vs.map fun (w : Int) => ((w : ℚ) / (m : ℚ)) * maxHeight)
            (((v : ℚ) / (m : ℚ)) * maxHeight) with h | h
          · rw [h]
            apply hfle
            rw [← hmval]
            exact foldl_max_self_le vs v
          · rcases List.mem_map.mp h with ⟨w, hw, hfw⟩
            rw [← hfw]
            apply hfle
            rw [← hmval]
            exact le_foldl_max vs v w hw
        · rcases foldl_max_mem vs v with h | h
          · have hveq : v = m := by rw [← hmval, h]
            have h0 : ((v : ℚ) / (m : ℚ)) * maxHeight = maxHeight := by
              rw [hveq]; exact hfm
            exact (le_of_eq h0.symm).trans (foldl_max_self_le _ _)
          · have hmem : m ∈ vs := hmval ▸ h
            have hfmem : ((m : ℚ) / (m : ℚ)) * maxHeight ∈
                vs.map fun (w : Int) => ((w : ℚ) / (m : ℚ)) * maxHeight :=
              List.mem_map.mpr ⟨m, hmem, rfl⟩
            exact (le_of_eq hfm.symm).trans (le_foldl_max _ _ _ hfmem)

/-- Witness for C10 (amended) at `values = [2, 4]`, `max_height = 4`. -/
theorem c10_amended_create_bars_witness :
    pyMaxInt [2, 4] = some 4 ∧ (4 : Int) ≠ 0 ∧ (0 : Int) < 4 ∧
    (0 : ℚ) ≤ 4 ∧
    (create_bars_heights [2, 4] 4 =
      some ([2, 4].map fun (w : Int) => ((w : ℚ) / ((4 : Int) : ℚ)) * 4) ∧
    ([2, 4].map fun (w : Int) => ((w : ℚ) / ((4 : Int) : ℚ)) * 4).length =
      ([2, 4] : List Int).length ∧
    pyMaxRat ([2, 4].map fun (w : Int) => ((w : ℚ) / ((4 : Int) : ℚ)) * 4) =
      some 4) := by
  have h := (c10_amended_create_bars [2, 4] 4).2 4 (by decide) (by decide)
  exact ⟨by decide, by decide, by decide, by norm_num,
    h.1, h.2.1, h.2.2 (by decide) (by norm_num)⟩
